import Mathlib

/-!
Verification of the johny learning-system core against its specification.

The development shallowly embeds the Python sources:
* `src/johny/knowledge/graph.py`   (KnowledgeGraph, cycle check, closures, Kahn sort, FIRe)
* `src/johny/mastery/levels.py`    (MasteryLevel.from_score)
* `src/johny/mastery/tracker.py`   (MasteryRecord.record_practice, MasteryTracker.apply_fire_credit)
* `src/johny/review/ebbinghaus.py` (calculate_retention, optimal_review_interval, update_stability,
                                    get_review_priority, ReviewSchedule)
* `src/johny/review/scheduler.py`  (ReviewScheduler.get_due_reviews)

Python dicts are modelled as association lists (first occurrence wins, insertion
at the end), Python sets stored in dict values as insertion-ordered duplicate-free
lists, float scores and stabilities as rationals, and wall-clock timestamps as
rational "days" passed in explicitly.  Python exceptions become explicit error
values; a mutating method that can raise returns the (possibly unchanged) state
together with an optional error, mirroring the exact point at which the original
raises.
-/

namespace Johny

/-- First-occurrence lookup in an association list whose values are lists,
with the empty list as default; models `d.get(k, set())` on a Python dict of sets. -/
def assocGetList (m : List (String × List String)) (k : String) : List String :=
  match m with
  | [] => []
  | (k2, v) :: rest => if k = k2 then v else assocGetList rest k

/-- First-occurrence lookup in an association list; models `k in d` plus `d[k]`. -/
def assocGet? {α : Type} (m : List (String × α)) (k : String) : Option α :=
  match m with
  | [] => none
  | (k2, v) :: rest => if k = k2 then some v else assocGet? rest k

/-- Replace the value at a key (first occurrence), appending when absent;
models `d[k] = v` on a Python dict. -/
def assocSet {α : Type} (m : List (String × α)) (k : String) (v : α) : List (String × α) :=
  match m with
  | [] => [(k, v)]
  | (k2, w) :: rest => if k = k2 then (k2, v) :: rest else (k2, w) :: assocSet rest k v

/-- Add an element to the set stored at a key of a defaultdict-of-sets;
models `d[k].add(v)` where `d = defaultdict(set)`. -/
def addToSetMap (m : List (String × List String)) (k v : String) :
    List (String × List String) :=
  match m with
  | [] => [(k, [v])]
  | (k2, s) :: rest =>
      if k = k2 then (k2, if v ∈ s then s else s ++ [v]) :: rest
      else (k2, s) :: addToSetMap rest k v

/-- The knowledge graph state: registered topic ids, the prerequisite map and
its mirrored dependents map (graph.py, class KnowledgeGraph).  Topics are
reduced to their ids; no claim depends on the other Topic attributes. -/
structure KnowledgeGraph where
  topics : List String
  prerequisites : List (String × List String)
  dependents : List (String × List String)
deriving Repr, DecidableEq

/-- Errors raised by graph mutation (graph.py raises ValueError with distinct
messages; the spec names them UnknownTopic and CycleDetected). -/
inductive GraphError where
  | unknownTopic (id : String)
  | cycleDetected
deriving Repr, DecidableEq

/-- Total number of dependent entries stored in a map; used as BFS fuel.
Each BFS pop either skips a visited node or expands an unvisited node, and a
node is expanded at most once, pushing only its stored dependents; hence the
queue receives at most one initial element plus one element per stored entry,
so `entryCount m + 2` steps always suffice and the fuel never runs out. -/
def entryCount (m : List (String × List String)) : Nat :=
  (m.map (fun p => p.2.length)).sum

/-- Breadth-first search over a dependents map looking for `target`
(graph.py, `_would_create_cycle` while-loop, translated with explicit fuel). -/
def bfsReaches (dep : List (String × List String)) (target : String) :
    Nat → List String → List String → Bool
  | 0, _, _ => false
  | _ + 1, [], _ => false
  | fuel + 1, current :: rest, visited =>
      if current = target then true
      else if current ∈ visited then bfsReaches dep target fuel rest visited
      else bfsReaches dep target fuel (rest ++ assocGetList dep current) (current :: visited)

/-- graph.py `_would_create_cycle`: prereqId reachable from topicId via dependents. -/
def wouldCreateCycle (g : KnowledgeGraph) (topicId prereqId : String) : Bool :=
  bfsReaches g.dependents prereqId (entryCount g.dependents + 2) [topicId] []

/-- graph.py `add_prerequisite`: validates both endpoints, rejects cycles, then
registers the edge in both maps.  The returned graph is the state at the point
the original returns or raises (all checks precede any mutation). -/
def addPrerequisite (g : KnowledgeGraph) (topicId prereqId : String) :
    Option GraphError × KnowledgeGraph :=
  if topicId ∉ g.topics then (some (GraphError.unknownTopic topicId), g)
  else if prereqId ∉ g.topics then (some (GraphError.unknownTopic prereqId), g)
  else if wouldCreateCycle g topicId prereqId then (some GraphError.cycleDetected, g)
  else (none,
    { g with prerequisites := addToSetMap g.prerequisites topicId prereqId,
             dependents := addToSetMap g.dependents prereqId topicId })

/-- C1: for all distinct registered topic ids A, B, C, after
`add_prerequisite(B, A)` and `add_prerequisite(C, B)` (both succeeding), the
call `add_prerequisite(A, C)` fails with CycleDetected and returns the graph
with prerequisites and dependents maps exactly as before the failed call. -/
theorem addPrerequisite_cycle_rejected_graph_unchanged (a b c : String)
    (hab : a ≠ b) (hac : a ≠ c) (hbc : b ≠ c) :
    (addPrerequisite ⟨[a, b, c], [], []⟩ b a).1 = none ∧
    (addPrerequisite (addPrerequisite ⟨[a, b, c], [], []⟩ b a).2 c b).1 = none ∧
    addPrerequisite (addPrerequisite (addPrerequisite ⟨[a, b, c], [], []⟩ b a).2 c b).2 a c
      = (some GraphError.cycleDetected,
         (addPrerequisite (addPrerequisite ⟨[a, b, c], [], []⟩ b a).2 c b).2) := by
  have h1 : addPrerequisite ⟨[a, b, c], [], []⟩ b a =
      (none, ⟨[a, b, c], [(b, [a])], [(a, [b])]⟩) := by
    simp [addPrerequisite, wouldCreateCycle, bfsReaches, assocGetList, addToSetMap,
      entryCount, hab, hac, hbc, Ne.symm hab, Ne.symm hac, Ne.symm hbc]
  have h2 : addPrerequisite (⟨[a, b, c], [(b, [a])], [(a, [b])]⟩ : KnowledgeGraph) c b =
      (none, ⟨[a, b, c], [(b, [a]), (c, [b])], [(a, [b]), (b, [c])]⟩) := by
    simp [addPrerequisite, wouldCreateCycle, bfsReaches, assocGetList, addToSetMap,
      entryCount, hab, hac, hbc, Ne.symm hab, Ne.symm hac, Ne.symm hbc]
  have h3 : addPrerequisite
      (⟨[a, b, c], [(b, [a]), (c, [b])], [(a, [b]), (b, [c])]⟩ : KnowledgeGraph) a c
      = (some GraphError.cycleDetected,
         ⟨[a, b, c], [(b, [a]), (c, [b])], [(a, [b]), (b, [c])]⟩) := by
    simp [addPrerequisite, wouldCreateCycle, bfsReaches, assocGetList, addToSetMap,
      entryCount, hab, hac, hbc, Ne.symm hab, Ne.symm hac, Ne.symm hbc]
  rw [h1]
  rw [h2]
  exact ⟨rfl, rfl, h3⟩

/-- C1 witness: the cycle rejection evaluated at concrete topic ids. -/
theorem addPrerequisite_cycle_rejected_graph_unchanged_witness :
    "x" ≠ "y" ∧ "x" ≠ "z" ∧ "y" ≠ "z" ∧
    ((addPrerequisite ⟨["x", "y", "z"], [], []⟩ "y" "x").1 = none ∧
     (addPrerequisite (addPrerequisite ⟨["x", "y", "z"], [], []⟩ "y" "x").2 "z" "y").1 = none ∧
     addPrerequisite
       (addPrerequisite (addPrerequisite ⟨["x", "y", "z"], [], []⟩ "y" "x").2 "z" "y").2 "x" "z"
       = (some GraphError.cycleDetected,
          (addPrerequisite (addPrerequisite ⟨["x", "y", "z"], [], []⟩ "y" "x").2 "z" "y").2)) :=
  ⟨by decide, by decide, by decide,
   addPrerequisite_cycle_rejected_graph_unchanged "x" "y" "z"
     (by decide) (by decide) (by decide)⟩

/-! ## Mastery levels (levels.py)

`MasteryLevel` is an IntEnum with values Unknown 0, Introduced 1, Developing 2,
Proficient 3, Mastered 4, Fluent 5; the transition function works on the
underlying integers, so levels are embedded as `Int` with those meanings. -/

namespace MasteryLevel

/-- levels.py `MasteryLevel.from_score`, target computation: the rank the raw
score maps to via the fixed breakpoints (a demotion candidate below 0.3). -/
def targetLevel (score : ℚ) (currentLevel : Int) : Int :=
  if score ≥ 0.95 then 5
  else if score ≥ 0.80 then 4
  else if score ≥ 0.60 then 3
  else if score ≥ 0.30 then 2
  else max 1 (currentLevel - 1)

/-- levels.py `MasteryLevel.from_score`: target rank from fixed score
breakpoints, promotion capped at one rank, demotion of one rank on a score
below 0.3 when above Introduced. -/
def fromScore (score : ℚ) (currentLevel : Int) : Int :=
  if targetLevel score currentLevel > currentLevel then
    min (currentLevel + 1) (targetLevel score currentLevel)
  else if score < 0.3 ∧ currentLevel > 1 then currentLevel - 1
  else currentLevel

end MasteryLevel

/-- C3: for every current level among the six ranks and every score, the new
level returned by `MasteryLevel.from_score` differs from the current level by
at most one rank. -/
theorem fromScore_changes_at_most_one_rank (score : ℚ) (level : Int)
    (h0 : 0 ≤ level) (h5 : level ≤ 5) :
    |MasteryLevel.fromScore score level - level| ≤ 1 := by
  have hlevel : 0 ≤ level ∧ level ≤ 5 := ⟨h0, h5⟩
  unfold MasteryLevel.fromScore MasteryLevel.targetLevel
  rw [abs_sub_le_iff]
  constructor <;> split_ifs <;> omega

/-- C3 witness: the one-rank bound evaluated at level Developing and score 1/2. -/
theorem fromScore_changes_at_most_one_rank_witness :
    (0 : Int) ≤ 2 ∧ (2 : Int) ≤ 5 ∧ |MasteryLevel.fromScore (1/2) 2 - 2| ≤ 1 :=
  ⟨by decide, by decide,
   fromScore_changes_at_most_one_rank (1/2) 2 (by decide) (by decide)⟩

/-! ## Mastery records and tracker (tracker.py)

Scores, stabilities and averages are rationals (the Python float values used by
the code are all exactly representable and only compared against exact decimal
thresholds); timestamps are rationals measured in days, passed in as `now`. -/

/-- tracker.py `PracticeEvent`: one append-only practice log entry. -/
structure PracticeEvent where
  timestamp : ℚ
  score : ℚ
  levelBefore : Int
  levelAfter : Int
  problemType : String
  timeSpentSeconds : Nat
deriving Repr, DecidableEq

/-- tracker.py `MasteryRecord`: per-topic mutable mastery state. -/
structure MasteryRecord where
  topicId : String
  level : Int
  lastPracticed : Option ℚ
  practiceCount : Nat
  totalTimeSeconds : Nat
  averageScore : ℚ
  history : List PracticeEvent
  stability : ℚ
  lastReview : Option ℚ
deriving Repr, DecidableEq

/-- A freshly created record (`MasteryRecord(topic_id=...)` with the dataclass
defaults: level Unknown, stability 1.0, no timestamps, empty history). -/
def MasteryRecord.fresh (topicId : String) : MasteryRecord :=
  ⟨topicId, 0, none, 0, 0, 0, [], 1, none⟩

/-- tracker.py `MasteryRecord.record_practice`: updates the level via
`MasteryLevel.from_score`, bumps the counters and running average, applies the
in-record stability rule (x1.2 capped at 10 for score at least 0.7, x0.8
floored at 0.5 for score below 0.4), stamps both timestamps to now, and logs a
`PracticeEvent`, trimming the history to its most recent 50 entries. -/
def MasteryRecord.recordPractice (r : MasteryRecord) (now score : ℚ)
    (problemType : String) (timeSpentSeconds : Nat) : MasteryRecord × Int :=
  let levelBefore := r.level
  let newLevel := MasteryLevel.fromScore score r.level
  let practiceCount := r.practiceCount + 1
  let averageScore := (r.averageScore * ((practiceCount : ℚ) - 1) + score) / (practiceCount : ℚ)
  let stability :=
    if score ≥ 0.7 then min 10 (r.stability * 1.2)
    else if score < 0.4 then max 0.5 (r.stability * 0.8)
    else r.stability
  let event : PracticeEvent := ⟨now, score, levelBefore, newLevel, problemType, timeSpentSeconds⟩
  let history0 := r.history ++ [event]
  let history := if history0.length > 50 then history0.drop (history0.length - 50) else history0
  ({ r with
      level := newLevel
      lastPracticed := some now
      lastReview := some now
      practiceCount := practiceCount
      totalTimeSeconds := r.totalTimeSeconds + timeSpentSeconds
      averageScore := averageScore
      stability := stability
      history := history }, newLevel)

/-- C2 counterexample: `record_practice` with score 0.5 on a fresh Unknown
record does not move the level to Developing (level 2); the one-step promotion
rule yields Introduced (level 1). -/
theorem recordPractice_half_on_fresh_not_developing :
    ((MasteryRecord.fresh "t").recordPractice 0 0.5 "" 0).1.level ≠ 2 := by
  norm_num [MasteryRecord.recordPractice, MasteryRecord.fresh,
    MasteryLevel.fromScore, MasteryLevel.targetLevel]

/-- C2 (amended): `record_practice` with score 0.5 on a freshly created record
at level Unknown moves the level to Introduced (score maps to target
Developing, but promotion is capped at one rank above Unknown), and leaves the
stability unchanged at 1.0 (0.5 is below the 0.7 increase threshold and not
below the 0.4 decrease threshold). -/
theorem recordPractice_half_on_fresh_introduced_stability_unchanged
    (topicId : String) (now : ℚ) :
    ((MasteryRecord.fresh topicId).recordPractice now 0.5 "" 0).1.level = 1 ∧
    ((MasteryRecord.fresh topicId).recordPractice now 0.5 "" 0).1.stability = 1 := by
  refine ⟨?_, ?_⟩ <;>
    norm_num [MasteryRecord.recordPractice, MasteryRecord.fresh,
      MasteryLevel.fromScore, MasteryLevel.targetLevel]

/-- tracker.py `MasteryTracker.get_record`: fetch the record for a topic,
lazily inserting a fresh one; returns the record together with the (possibly
extended) record table. -/
def getRecord (records : List (String × MasteryRecord)) (topicId : String) :
    MasteryRecord × List (String × MasteryRecord) :=
  match assocGet? records topicId with
  | some r => (r, records)
  | none => (MasteryRecord.fresh topicId, records ++ [(topicId, MasteryRecord.fresh topicId)])

/-- tracker.py `MasteryTracker.record_practice`: get-or-create the record,
run `record_practice` on it and store the mutated record. -/
def trackerRecordPractice (records : List (String × MasteryRecord)) (topicId : String)
    (now score : ℚ) (problemType : String) (timeSpentSeconds : Nat) :
    List (String × MasteryRecord) × Int :=
  let gr := getRecord records topicId
  let res := gr.1.recordPractice now score problemType timeSpentSeconds
  (assocSet gr.2 topicId res.1, res.2)

/-- One iteration of the tracker.py `apply_fire_credit` loop: if the adjusted
score passes the 0.3 gate, get-or-create the ancestor record and, when it
already has a last-review timestamp, nudge its stability by 1 + 0.1 x weight
(capped at 10.0) and refresh its last-review to now. -/
def fireStep (now baseScore : ℚ) (records : List (String × MasteryRecord))
    (pw : String × ℚ) : List (String × MasteryRecord) :=
  if baseScore * pw.2 ≥ 0.3 then
    let gr := getRecord records pw.1
    match gr.1.lastReview with
    | some _ =>
        assocSet gr.2 pw.1
          { gr.1 with
              stability := min 10 (gr.1.stability * (1 + 0.1 * pw.2))
              lastReview := some now }
    | none => gr.2
  else records

/-- tracker.py `MasteryTracker.apply_fire_credit`: fold of `fireStep` over the
FIRe weight map in iteration order. -/
def applyFireCredit (records : List (String × MasteryRecord))
    (fireWeights : List (String × ℚ)) (baseScore now : ℚ) :
    List (String × MasteryRecord) :=
  fireWeights.foldl (fireStep now baseScore) records

/-! ### Association list lemmas -/

theorem assocGet?_assocSet_self {α : Type} (m : List (String × α)) (k : String) (v : α) :
    assocGet? (assocSet m k v) k = some v := by
  induction m with
  | nil => simp [assocSet, assocGet?]
  | cons p rest ih =>
      by_cases h : k = p.1
      · simp [assocSet, assocGet?, h]
      · simp [assocSet, assocGet?, h, ih]

theorem assocGet?_assocSet_ne {α : Type} (m : List (String × α)) (k k2 : String) (v : α)
    (h : k2 ≠ k) : assocGet? (assocSet m k v) k2 = assocGet? m k2 := by
  induction m with
  | nil => simp [assocSet, assocGet?, h]
  | cons p rest ih =>
      by_cases hk : k = p.1
      · subst hk
        simp [assocSet, assocGet?, h]
      · by_cases hk2 : k2 = p.1
        · simp [assocSet, assocGet?, hk, hk2]
        · simp [assocSet, assocGet?, hk, hk2, ih]

theorem assocGet?_append {α : Type} (m m2 : List (String × α)) (k : String) :
    assocGet? (m ++ m2) k =
      match assocGet? m k with
      | some v => some v
      | none => assocGet? m2 k := by
  induction m with
  | nil => simp [assocGet?]
  | cons p rest ih =>
      by_cases h : k = p.1
      · simp [assocGet?, h]
      · simp [assocGet?, h, ih]

theorem assocGet?_mem {α : Type} {m : List (String × α)} {k : String} {v : α}
    (h : assocGet? m k = some v) : (k, v) ∈ m := by
  induction m with
  | nil => simp [assocGet?] at h
  | cons p rest ih =>
      by_cases hk : k = p.1
      · simp [assocGet?, hk] at h
        subst hk
        simp [← h]
      · simp [assocGet?, hk] at h
        exact List.mem_cons_of_mem _ (ih h)

theorem mem_assocSet {α : Type} {m : List (String × α)} {k : String} {v : α} {p : String × α}
    (h : p ∈ assocSet m k v) : p ∈ m ∨ p = (k, v) := by
  induction m with
  | nil => simp [assocSet] at h; simp [h]
  | cons q rest ih =>
      by_cases hk : k = q.1
      · simp [assocSet, hk] at h
        rcases h with h | h
        · right; rw [h, hk]
        · left; exact List.mem_cons_of_mem _ h
      · simp [assocSet, hk] at h
        rcases h with h | h
        · left; simp [h]
        · rcases ih h with h2 | h2
          · left; exact List.mem_cons_of_mem _ h2
          · right; exact h2

/-- Effect of one `fireStep` on the entry of a key other than the one processed. -/
theorem fireStep_get?_other (now baseScore : ℚ) (records : List (String × MasteryRecord))
    (pw : String × ℚ) (id : String) (hne : id ≠ pw.1) :
    assocGet? (fireStep now baseScore records pw) id = assocGet? records id := by
  unfold fireStep
  split
  · unfold getRecord
    rcases hfind : assocGet? records pw.1 with _ | r
    · simp only [hfind]
      split
      · rw [assocGet?_assocSet_ne _ _ _ _ hne, assocGet?_append]
        simp only [assocGet?, if_neg hne]
        cases assocGet? records id <;> rfl
      · rw [assocGet?_append]
        simp only [assocGet?, if_neg hne]
        cases assocGet? records id <;> rfl
    · simp only [hfind]
      split
      · rw [assocGet?_assocSet_ne _ _ _ _ hne]
      · rfl
  · rfl

/-- `apply_fire_credit` does not touch records whose id carries no weight. -/
theorem applyFireCredit_get?_notin (now baseScore : ℚ)
    (weights : List (String × ℚ)) (records : List (String × MasteryRecord)) (id : String)
    (h : id ∉ weights.map Prod.fst) :
    assocGet? (applyFireCredit records weights baseScore now) id = assocGet? records id := by
  induction weights generalizing records with
  | nil => rfl
  | cons pw rest ih =>
      simp only [List.map_cons, List.mem_cons] at h
      push_neg at h
      unfold applyFireCredit at ih ⊢
      rw [List.foldl_cons, ih _ h.2, fireStep_get?_other _ _ _ _ _ h.1]

/-- Pointwise characterization of `apply_fire_credit` on a pre-existing record:
the record is rewritten exactly when its id carries a weight passing the 0.3
gate and it already has a last-review timestamp; only stability and
last-review change. -/
theorem applyFireCredit_get?_eq (now baseScore : ℚ) (weights : List (String × ℚ))
    (hw : (weights.map Prod.fst).Nodup)
    (records : List (String × MasteryRecord)) (id : String) (r : MasteryRecord)
    (hr : assocGet? records id = some r) :
    assocGet? (applyFireCredit records weights baseScore now) id =
      some (match assocGet? weights id with
            | none => r
            | some w =>
              if baseScore * w ≥ 0.3 then
                match r.lastReview with
                | some _ =>
                    { r with
                        stability := min 10 (r.stability * (1 + 0.1 * w))
                        lastReview := some now }
                | none => r
              else r) := by
  induction weights generalizing records r with
  | nil => simpa [applyFireCredit, assocGet?] using hr
  | cons pw rest ih =>
      by_cases hid : id = pw.1
      · have hnotin : id ∉ rest.map Prod.fst := by
          rw [hid]
          exact (List.nodup_cons.mp hw).1
        have hhead : assocGet? (fireStep now baseScore records pw) id =
            some (if baseScore * pw.2 ≥ 0.3 then
                    match r.lastReview with
                    | some _ =>
                        { r with
                            stability := min 10 (r.stability * (1 + 0.1 * pw.2))
                            lastReview := some now }
                    | none => r
                  else r) := by
          unfold fireStep getRecord
          rw [← hid, hr]
          by_cases hgate : baseScore * pw.2 ≥ 0.3
          · rcases hlr : r.lastReview with _ | t
            · simp only [if_pos hgate, hlr]
              exact hr
            · simp only [if_pos hgate, hlr]
              exact assocGet?_assocSet_self _ _ _
          · simp only [if_neg hgate]
            exact hr
        have : applyFireCredit records (pw :: rest) baseScore now =
            applyFireCredit (fireStep now baseScore records pw) rest baseScore now := rfl
        rw [this, applyFireCredit_get?_notin _ _ _ _ _ hnotin, hhead]
        simp [assocGet?, hid]
      · have hhead := fireStep_get?_other now baseScore records pw id hid
        have : applyFireCredit records (pw :: rest) baseScore now =
            applyFireCredit (fireStep now baseScore records pw) rest baseScore now := rfl
        rw [this, ih (List.nodup_cons.mp hw).2 _ r (hhead.trans hr)]
        simp [assocGet?, hid]

/-- C8: `apply_fire_credit` multiplies stability by 1 + 0.1 x weight (capped at
10.0) and refreshes last-review to now exactly for those pre-existing ancestor
records whose adjusted score passes the 0.3 gate and which already have a
last-review timestamp; every other pre-existing record is returned unchanged,
and for the updated records the level, history, practice count, total time and
average score are untouched (only the stability and last-review fields change). -/
theorem applyFireCredit_updates_exactly_gated_ancestors
    (now baseScore : ℚ) (weights : List (String × ℚ))
    (hw : (weights.map Prod.fst).Nodup)
    (records : List (String × MasteryRecord)) (id : String) (r : MasteryRecord)
    (hr : assocGet? records id = some r) :
    (∀ w, assocGet? weights id = some w → baseScore * w ≥ 0.3 → r.lastReview ≠ none →
      assocGet? (applyFireCredit records weights baseScore now) id =
        some { r with
                 stability := min 10 (r.stability * (1 + 0.1 * w))
                 lastReview := some now }) ∧
    (∀ w, assocGet? weights id = some w → ¬ baseScore * w ≥ 0.3 →
      assocGet? (applyFireCredit records weights baseScore now) id = some r) ∧
    (∀ w, assocGet? weights id = some w → r.lastReview = none →
      assocGet? (applyFireCredit records weights baseScore now) id = some r) ∧
    (assocGet? weights id = none →
      assocGet? (applyFireCredit records weights baseScore now) id = some r) := by
  have key := applyFireCredit_get?_eq now baseScore weights hw records id r hr
  refine ⟨?_, ?_, ?_, ?_⟩
  · intro w hfind hgate hlr
    rcases hlrv : r.lastReview with _ | t
    · exact absurd hlrv hlr
    · rw [key, hfind]
      simp [if_pos hgate, hlrv]
  · intro w hfind hgate
    rw [key, hfind]
    simp [if_neg hgate]
  · intro w hfind hlr
    by_cases hg : baseScore * w ≥ 0.3
    · rw [key, hfind]
      simp [hg, hlr]
    · rw [key, hfind]
      simp [hg]
  · intro hfind
    rw [key, hfind]

/-- C8 witness: the characterization evaluated on a one-record tracker with a
single weight of 1 at base score 1, the record having a last review. -/
theorem applyFireCredit_updates_exactly_gated_ancestors_witness :
    (([("p", (1 : ℚ))].map Prod.fst).Nodup) ∧
    assocGet? [("p", MasteryRecord.mk "p" 1 (some 0) 1 0 1 [] 1 (some 0))] "p"
      = some (MasteryRecord.mk "p" 1 (some 0) 1 0 1 [] 1 (some 0)) ∧
    ((∀ w, assocGet? [("p", (1 : ℚ))] "p" = some w → (1 : ℚ) * w ≥ 0.3 →
        (MasteryRecord.mk "p" 1 (some 0) 1 0 1 [] 1 (some 0)).lastReview ≠ none →
        assocGet? (applyFireCredit [("p", MasteryRecord.mk "p" 1 (some 0) 1 0 1 [] 1 (some 0))]
            [("p", (1 : ℚ))] 1 2) "p" =
          some { MasteryRecord.mk "p" 1 (some 0) 1 0 1 [] 1 (some 0) with
                   stability := min 10 ((MasteryRecord.mk "p" 1 (some 0) 1 0 1 [] 1
                     (some 0)).stability * (1 + 0.1 * w))
                   lastReview := some 2 }) ∧
     (∀ w, assocGet? [("p", (1 : ℚ))] "p" = some w → ¬ (1 : ℚ) * w ≥ 0.3 →
        assocGet? (applyFireCredit [("p", MasteryRecord.mk "p" 1 (some 0) 1 0 1 [] 1 (some 0))]
            [("p", (1 : ℚ))] 1 2) "p" = some (MasteryRecord.mk "p" 1 (some 0) 1 0 1 [] 1 (some 0))) ∧
     (∀ w, assocGet? [("p", (1 : ℚ))] "p" = some w →
        (MasteryRecord.mk "p" 1 (some 0) 1 0 1 [] 1 (some 0)).lastReview = none →
        assocGet? (applyFireCredit [("p", MasteryRecord.mk "p" 1 (some 0) 1 0 1 [] 1 (some 0))]
            [("p", (1 : ℚ))] 1 2) "p" = some (MasteryRecord.mk "p" 1 (some 0) 1 0 1 [] 1 (some 0))) ∧
     (assocGet? [("p", (1 : ℚ))] "p" = none →
        assocGet? (applyFireCredit [("p", MasteryRecord.mk "p" 1 (some 0) 1 0 1 [] 1 (some 0))]
            [("p", (1 : ℚ))] 1 2) "p" = some (MasteryRecord.mk "p" 1 (some 0) 1 0 1 [] 1 (some 0)))) :=
  ⟨by decide, by rfl,
   applyFireCredit_updates_exactly_gated_ancestors 2 1 [("p", (1 : ℚ))] (by decide)
     [("p", MasteryRecord.mk "p" 1 (some 0) 1 0 1 [] 1 (some 0))] "p"
     (MasteryRecord.mk "p" 1 (some 0) 1 0 1 [] 1 (some 0)) (by rfl)⟩

/-- ebbinghaus.py `update_stability`: score-band multiplier, difficulty bonus
for hard successful recalls, result clamped to [0.5, 30.0].  This standalone
decay-model rule is distinct from the in-record rule in `record_practice`. -/
def updateStability (currentStability score retentionAtReview : ℚ) : ℚ :=
  let baseMultiplier : ℚ :=
    if score ≥ 0.9 then 2.5
    else if score ≥ 0.7 then 1.8
    else if score ≥ 0.5 then 1.3
    else if score ≥ 0.3 then 0.9
    else 0.6
  let multiplier :=
    if score ≥ 0.7 ∧ retentionAtReview < 0.5 then
      baseMultiplier * (1 + (0.5 - retentionAtReview))
    else baseMultiplier
  max 0.5 (min 30 (currentStability * multiplier))

/-- A mutating tracker operation: an explicit practice event or a FIRe credit
propagation (the operations of tracker.py that touch stability). -/
inductive TrackerOp where
  | practice (topicId : String) (now score : ℚ) (problemType : String) (timeSpentSeconds : Nat)
  | fire (topicId : String) (weights : List (String × ℚ)) (baseScore now : ℚ)
deriving Repr

/-- The FIRe weights carried by an operation (empty for practice events). -/
def TrackerOp.fireWeights : TrackerOp → List (String × ℚ)
  | .practice _ _ _ _ _ => []
  | .fire _ weights _ _ => weights

/-- Apply one tracker operation to the record table. -/
def applyTrackerOp (records : List (String × MasteryRecord)) :
    TrackerOp → List (String × MasteryRecord)
  | .practice topicId now score problemType timeSpentSeconds =>
      (trackerRecordPractice records topicId now score problemType timeSpentSeconds).1
  | .fire _ weights baseScore now => applyFireCredit records weights baseScore now

/-- Run a sequence of tracker operations from a given record table. -/
def runOps (records : List (String × MasteryRecord)) (ops : List TrackerOp) :
    List (String × MasteryRecord) :=
  ops.foldl applyTrackerOp records

/-- Every record in the table has stability within the in-record clamp. -/
def TrackerInv (records : List (String × MasteryRecord)) : Prop :=
  ∀ p ∈ records, 1/2 ≤ p.2.stability ∧ p.2.stability ≤ 10

theorem recordPractice_stability_bounds (r : MasteryRecord) (now score : ℚ)
    (problemType : String) (timeSpentSeconds : Nat)
    (h1 : 1/2 ≤ r.stability) (h2 : r.stability ≤ 10) :
    1/2 ≤ (r.recordPractice now score problemType timeSpentSeconds).1.stability ∧
    (r.recordPractice now score problemType timeSpentSeconds).1.stability ≤ 10 := by
  have hs : (r.recordPractice now score problemType timeSpentSeconds).1.stability =
      if score ≥ 0.7 then min 10 (r.stability * 1.2)
      else if score < 0.4 then max 0.5 (r.stability * 0.8)
      else r.stability := rfl
  rw [hs]
  split_ifs
  · refine ⟨le_min (by norm_num) (by linarith), min_le_left _ _⟩
  · refine ⟨le_trans (by norm_num) (le_max_left (0.5 : ℚ) _),
      max_le (by norm_num) (by linarith)⟩
  · exact ⟨h1, h2⟩

theorem trackerInv_getRecord (records : List (String × MasteryRecord)) (id : String)
    (h : TrackerInv records) :
    (1/2 ≤ (getRecord records id).1.stability ∧ (getRecord records id).1.stability ≤ 10) ∧
    TrackerInv (getRecord records id).2 := by
  unfold getRecord
  rcases hfind : assocGet? records id with _ | r
  · simp only [hfind]
    constructor
    · constructor <;> norm_num [MasteryRecord.fresh]
    · intro p hp
      rcases List.mem_append.mp hp with hp | hp
      · exact h p hp
      · simp at hp
        rw [hp]
        constructor <;> norm_num [MasteryRecord.fresh]
  · simp only [hfind]
    exact ⟨h _ (assocGet?_mem hfind), h⟩

theorem trackerInv_practice (records : List (String × MasteryRecord)) (id : String)
    (now score : ℚ) (problemType : String) (timeSpentSeconds : Nat)
    (h : TrackerInv records) :
    TrackerInv (trackerRecordPractice records id now score problemType timeSpentSeconds).1 := by
  obtain ⟨hrec, htab⟩ := trackerInv_getRecord records id h
  unfold trackerRecordPractice
  intro p hp
  rcases mem_assocSet hp with hp2 | hp2
  · exact htab p hp2
  · rw [hp2]
    exact recordPractice_stability_bounds _ now score problemType timeSpentSeconds
      hrec.1 hrec.2

theorem trackerInv_fireStep (records : List (String × MasteryRecord))
    (now baseScore : ℚ) (pw : String × ℚ) (hwpos : 0 ≤ pw.2)
    (h : TrackerInv records) :
    TrackerInv (fireStep now baseScore records pw) := by
  obtain ⟨hrec, htab⟩ := trackerInv_getRecord records pw.1 h
  unfold fireStep
  by_cases hgate : baseScore * pw.2 ≥ 0.3
  · simp only [if_pos hgate]
    rcases hlr : (getRecord records pw.1).1.lastReview with _ | t
    · simp only [hlr]
      exact htab
    · simp only [hlr]
      intro p hp
      rcases mem_assocSet hp with hp2 | hp2
      · exact htab p hp2
      · rw [hp2]
        refine ⟨le_min (by norm_num) ?_, min_le_left _ _⟩
        nlinarith [hrec.1, hrec.2,
          mul_nonneg (le_trans (by norm_num : (0 : ℚ) ≤ 1/2) hrec.1) hwpos]
  · simp only [if_neg hgate]
    exact h

theorem trackerInv_fire (records : List (String × MasteryRecord))
    (weights : List (String × ℚ)) (baseScore now : ℚ)
    (hwpos : ∀ pw ∈ weights, 0 ≤ pw.2) (h : TrackerInv records) :
    TrackerInv (applyFireCredit records weights baseScore now) := by
  induction weights generalizing records with
  | nil => exact h
  | cons pw rest ih =>
      have : applyFireCredit records (pw :: rest) baseScore now =
          applyFireCredit (fireStep now baseScore records pw) rest baseScore now := rfl
      rw [this]
      exact ih _ (fun q hq => hwpos q (List.mem_cons_of_mem _ hq))
        (trackerInv_fireStep records now baseScore pw (hwpos pw (List.mem_cons_self _ _)) h)

theorem trackerInv_runOps (records : List (String × MasteryRecord)) (ops : List TrackerOp)
    (hops : ∀ op ∈ ops, ∀ pw ∈ op.fireWeights, 0 ≤ pw.2) (h : TrackerInv records) :
    TrackerInv (runOps records ops) := by
  induction ops generalizing records with
  | nil => exact h
  | cons op rest ih =>
      have hrun : runOps records (op :: rest) = runOps (applyTrackerOp records op) rest := rfl
      rw [hrun]
      refine ih _ (fun o ho => hops o (List.mem_cons_of_mem _ ho)) ?_
      cases op with
      | practice id now score pt ts => exact trackerInv_practice records id now score pt ts h
      | fire id weights base now =>
          exact trackerInv_fire records weights base now
            (hops _ (List.mem_cons_self _ _)) h

/-- C9 counterexample: with an arbitrary (negative) weight and a negative base
score the 0.3 gate passes and `apply_fire_credit` scales stability by a factor
below 1 with no lower clamp: starting from a fresh record, one practice at
score 0 followed by FIRe credit with weight -10 at base score -1 leaves
stability at 0, outside [0.5, 10]. -/
theorem stability_clamp_fails_for_negative_weights :
    (assocGet? (runOps [] [TrackerOp.practice "t" 0 0 "" 0,
        TrackerOp.fire "t" [("t", -10)] (-1) 0]) "t").map MasteryRecord.stability
      = some 0 ∧ ¬ ((1 : ℚ)/2 ≤ 0) := by
  constructor
  · norm_num [runOps, applyTrackerOp, trackerRecordPractice, getRecord, assocGet?, assocSet,
      MasteryRecord.recordPractice, MasteryRecord.fresh, MasteryLevel.fromScore,
      MasteryLevel.targetLevel, applyFireCredit, fireStep]
  · norm_num

/-- C9 (amended): starting from an empty tracker (every record is created
fresh with stability 1.0), after any sequence of `record_practice` and
`apply_fire_credit` operations with arbitrary scores and nonnegative weights
(as `get_fire_ancestors` produces), every record's stability lies in
[0.5, 10.0]; the wider [0.5, 30.0] clamp holds for the decay model's
standalone `update_stability` helper, which the record updates do not use. -/
theorem stability_clamped_under_tracker_ops (ops : List TrackerOp)
    (hops : ∀ op ∈ ops, ∀ pw ∈ op.fireWeights, 0 ≤ pw.2) :
    (∀ id r, assocGet? (runOps [] ops) id = some r →
       1/2 ≤ r.stability ∧ r.stability ≤ 10) ∧
    (∀ s sc ra : ℚ, 1/2 ≤ updateStability s sc ra ∧ updateStability s sc ra ≤ 30) := by
  constructor
  · intro id r hfind
    have hinv : TrackerInv (runOps [] ops) :=
      trackerInv_runOps [] ops hops (by intro p hp; simp at hp)
    exact hinv _ (assocGet?_mem hfind)
  · intro s sc ra
    unfold updateStability
    refine ⟨?_, ?_⟩
    · exact le_trans (by norm_num) (le_max_left (0.5 : ℚ) _)
    · exact max_le (by norm_num) (min_le_left _ _)

/-- C9 witness: the invariant evaluated on a one-practice sequence. -/
theorem stability_clamped_under_tracker_ops_witness :
    (∀ op ∈ [TrackerOp.practice "t" 0 1 "" 0], ∀ pw ∈ op.fireWeights, (0 : ℚ) ≤ pw.2) ∧
    ((∀ id r, assocGet? (runOps [] [TrackerOp.practice "t" 0 1 "" 0]) id = some r →
        1/2 ≤ r.stability ∧ r.stability ≤ 10) ∧
     (∀ s sc ra : ℚ, 1/2 ≤ updateStability s sc ra ∧ updateStability s sc ra ≤ 30)) :=
  ⟨by
    intro op hop pw hpw
    simp at hop
    rw [hop] at hpw
    simp [TrackerOp.fireWeights] at hpw,
   stability_clamped_under_tracker_ops [TrackerOp.practice "t" 0 1 "" 0]
     (by
       intro op hop pw hpw
       simp at hop
       rw [hop] at hpw
       simp [TrackerOp.fireWeights] at hpw)⟩

/-! ## Transitive prerequisite closure (graph.py `get_all_prerequisites`) -/

/-- All ids mentioned in a map, keys and values; used only to bound the
breadth-first closure traversal. -/
def mapUniverse (m : List (String × List String)) : List String :=
  m.foldr (fun p acc => p.1 :: p.2 ++ acc) []

theorem mapUniverse_cons (p : String × List String) (rest : List (String × List String)) :
    mapUniverse (p :: rest) = p.1 :: (p.2 ++ mapUniverse rest) := rfl

theorem assocGetList_eq_nil_of_not_mem_universe (m : List (String × List String))
    (k : String) (h : k ∉ mapUniverse m) : assocGetList m k = [] := by
  induction m with
  | nil => rfl
  | cons p rest ih =>
      rw [mapUniverse_cons] at h
      simp only [List.mem_cons, List.mem_append] at h
      push_neg at h
      unfold assocGetList
      rw [if_neg h.1]
      exact ih h.2.2

theorem mem_universe_of_mem_assocGetList (m : List (String × List String))
    (k x : String) (h : x ∈ assocGetList m k) : x ∈ mapUniverse m := by
  induction m with
  | nil => simp [assocGetList] at h
  | cons p rest ih =>
      unfold assocGetList at h
      rw [mapUniverse_cons]
      simp only [List.mem_cons, List.mem_append]
      by_cases hk : k = p.1
      · rw [if_pos hk] at h
        exact Or.inr (Or.inl h)
      · rw [if_neg hk] at h
        exact Or.inr (Or.inr (ih h))

theorem mem_assocGetList_entry (m : List (String × List String)) (k x : String)
    (h : x ∈ assocGetList m k) : ∃ l, (k, l) ∈ m ∧ x ∈ l := by
  induction m with
  | nil => simp [assocGetList] at h
  | cons p rest ih =>
      unfold assocGetList at h
      by_cases hk : k = p.1
      · rw [if_pos hk] at h
        exact ⟨p.2, by simp [hk], h⟩
      · rw [if_neg hk] at h
        obtain ⟨l, hl, hx⟩ := ih h
        exact ⟨l, List.mem_cons_of_mem _ hl, hx⟩

/-- graph.py `get_all_prerequisites` while-loop: breadth-first accumulation of
the prerequisite closure (pop, skip if seen, record, push direct prerequisites). -/
def closureLoop (m : List (String × List String)) (queue acc : List String) : List String :=
  match queue with
  | [] => acc
  | p :: rest =>
      if hp : p ∈ acc then closureLoop m rest acc
      else closureLoop m (rest ++ assocGetList m p) (p :: acc)
termination_by (((mapUniverse m).toFinset \ acc.toFinset).card, queue.length)
decreasing_by
  · exact Prod.Lex.right _ (by simp)
  · by_cases hu : p ∈ (mapUniverse m).toFinset
    · apply Prod.Lex.left
      rw [List.toFinset_cons, Finset.sdiff_insert]
      exact Finset.card_erase_lt_of_mem (Finset.mem_sdiff.mpr ⟨hu, by simpa using hp⟩)
    · have hnil : assocGetList m p = [] :=
        assocGetList_eq_nil_of_not_mem_universe m p (by simpa using hu)
      have heq : (mapUniverse m).toFinset \ (p :: acc).toFinset
          = (mapUniverse m).toFinset \ acc.toFinset := by
        rw [List.toFinset_cons, Finset.sdiff_insert,
          Finset.erase_eq_of_not_mem (fun hmem => hu (Finset.mem_sdiff.mp hmem).1)]
      rw [heq, hnil]
      exact Prod.Lex.right _ (by simp)

theorem closureLoop_acc_subset (m : List (String × List String)) (queue acc : List String) :
    ∀ x ∈ acc, x ∈ closureLoop m queue acc := by
  induction queue, acc using closureLoop.induct m with
  | case1 acc =>
      intro x hx
      rw [closureLoop]
      exact hx
  | case2 acc p rest hp ih =>
      intro x hx
      rw [closureLoop]
      simp only [dif_pos hp]
      exact ih x hx
  | case3 acc p rest hp ih =>
      intro x hx
      rw [closureLoop]
      simp only [dif_neg hp]
      exact ih x (List.mem_cons_of_mem _ hx)

theorem closureLoop_queue_subset (m : List (String × List String)) (queue acc : List String) :
    ∀ x ∈ queue, x ∈ closureLoop m queue acc := by
  induction queue, acc using closureLoop.induct m with
  | case1 acc =>
      intro x hx
      simp at hx
  | case2 acc p rest hp ih =>
      intro x hx
      rw [closureLoop]
      simp only [dif_pos hp]
      rcases List.mem_cons.mp hx with hx | hx
      · rw [hx]
        exact closureLoop_acc_subset m rest acc p hp
      · exact ih x hx
  | case3 acc p rest hp ih =>
      intro x hx
      rw [closureLoop]
      simp only [dif_neg hp]
      rcases List.mem_cons.mp hx with hx | hx
      · rw [hx]
        exact closureLoop_acc_subset m _ _ p (List.mem_cons_self _ _)
      · exact ih x (List.mem_append_left _ hx)

theorem closureLoop_sound (m : List (String × List String)) (queue acc : List String)
    (R : String → Prop) (hstep : ∀ u v, R u → v ∈ assocGetList m u → R v)
    (hq : ∀ x ∈ queue, R x) (ha : ∀ x ∈ acc, R x) :
    ∀ x ∈ closureLoop m queue acc, R x := by
  induction queue, acc using closureLoop.induct m with
  | case1 acc =>
      intro x hx
      rw [closureLoop] at hx
      exact ha x hx
  | case2 acc p rest hp ih =>
      intro x hx
      rw [closureLoop] at hx
      simp only [dif_pos hp] at hx
      exact ih (fun y hy => hq y (List.mem_cons_of_mem _ hy)) ha x hx
  | case3 acc p rest hp ih =>
      intro x hx
      rw [closureLoop] at hx
      simp only [dif_neg hp] at hx
      refine ih ?_ ?_ x hx
      · intro y hy
        rcases List.mem_append.mp hy with hy | hy
        · exact hq y (List.mem_cons_of_mem _ hy)
        · exact hstep p y (hq p (List.mem_cons_self _ _)) hy
      · intro y hy
        rcases List.mem_cons.mp hy with hy | hy
        · rw [hy]
          exact hq p (List.mem_cons_self _ _)
        · exact ha y hy

theorem closureLoop_closed (m : List (String × List String)) (queue acc : List String)
    (hcl : ∀ u ∈ acc, ∀ v ∈ assocGetList m u, v ∈ acc ∨ v ∈ queue) :
    ∀ u ∈ closureLoop m queue acc, ∀ v ∈ assocGetList m u,
      v ∈ closureLoop m queue acc := by
  induction queue, acc using closureLoop.induct m with
  | case1 acc =>
      intro u hu v hv
      rw [closureLoop] at hu ⊢
      rcases hcl u hu v hv with h | h
      · exact h
      · simp at h
  | case2 acc p rest hp ih =>
      intro u hu v hv
      rw [closureLoop] at hu ⊢
      simp only [dif_pos hp] at hu ⊢
      refine ih ?_ u hu v hv
      intro u2 hu2 v2 hv2
      rcases hcl u2 hu2 v2 hv2 with h | h
      · exact Or.inl h
      · rcases List.mem_cons.mp h with h | h
        · rw [h]
          exact Or.inl hp
        · exact Or.inr h
  | case3 acc p rest hp ih =>
      intro u hu v hv
      rw [closureLoop] at hu ⊢
      simp only [dif_neg hp] at hu ⊢
      refine ih ?_ u hu v hv
      intro u2 hu2 v2 hv2
      rcases List.mem_cons.mp hu2 with h | h
      · subst h
        exact Or.inr (List.mem_append_right _ hv2)
      · rcases hcl u2 h v2 hv2 with h2 | h2
        · exact Or.inl (List.mem_cons_of_mem _ h2)
        · rcases List.mem_cons.mp h2 with h2 | h2
          · rw [h2]
            exact Or.inl (List.mem_cons_self _ _)
          · exact Or.inr (List.mem_append_left _ h2)

/-- Transitive reachability (at least one step) along the stored direct lists
of a map: the least relation containing the direct entries of `root` and
closed under following a further direct entry.  This is the least fixed point
of repeatedly unioning direct prerequisites, as the spec phrases it. -/
inductive ReachesViaMap (m : List (String × List String)) (root : String) : String → Prop
  | direct {v : String} : v ∈ assocGetList m root → ReachesViaMap m root v
  | step {u v : String} : ReachesViaMap m root u → v ∈ assocGetList m u →
      ReachesViaMap m root v

/-- The DAG invariant for the prerequisite relation: no id reaches itself. -/
def Acyclic (g : KnowledgeGraph) : Prop :=
  ∀ x, ¬ ReachesViaMap g.prerequisites x x

/-- Both endpoints of every stored prerequisite edge are registered topics
(guaranteed by `add_prerequisite` for graphs built through the API). -/
def EdgesRegistered (g : KnowledgeGraph) : Prop :=
  ∀ p ∈ g.prerequisites, ∀ v ∈ p.2, v ∈ g.topics

/-- graph.py `get_all_prerequisites`: breadth-first transitive closure, then
materialization of the ids that are registered topics. -/
def getAllPrerequisites (g : KnowledgeGraph) (topicId : String) : List String :=
  (closureLoop g.prerequisites (assocGetList g.prerequisites topicId) []).filter
    (fun x => decide (x ∈ g.topics))

theorem closureLoop_mem_iff_reaches (m : List (String × List String)) (t : String) :
    ∀ x, x ∈ closureLoop m (assocGetList m t) [] ↔ ReachesViaMap m t x := by
  intro x
  constructor
  · intro hx
    refine closureLoop_sound m _ [] (ReachesViaMap m t) ?_ ?_ ?_ x hx
    · intro u v hu hv
      exact ReachesViaMap.step hu hv
    · intro y hy
      exact ReachesViaMap.direct hy
    · intro y hy
      simp at hy
  · intro hx
    induction hx with
    | direct hv => exact closureLoop_queue_subset m _ [] _ hv
    | step hu hv ih =>
        exact closureLoop_closed m _ [] (by intro u hu2 v hv2; simp at hu2) _ ih _ hv

theorem reaches_mem_topics (g : KnowledgeGraph) (t x : String)
    (hreg : EdgesRegistered g) (h : ReachesViaMap g.prerequisites t x) : x ∈ g.topics := by
  induction h with
  | direct hv =>
      obtain ⟨l, hl, hx⟩ := mem_assocGetList_entry _ _ _ hv
      exact hreg _ hl _ hx
  | step hu hv ih =>
      obtain ⟨l, hl, hx⟩ := mem_assocGetList_entry _ _ _ hv
      exact hreg _ hl _ hx

/-- C4: in an acyclic graph whose edges join registered topics, the ids
returned by `get_all_prerequisites(T)` are exactly the transitive closure of
the direct-prerequisite relation starting at T, and T itself never appears. -/
theorem getAllPrerequisites_is_transitive_closure (g : KnowledgeGraph) (t : String)
    (hreg : EdgesRegistered g) (hacyc : Acyclic g) :
    (∀ x, x ∈ getAllPrerequisites g t ↔ ReachesViaMap g.prerequisites t x) ∧
    t ∉ getAllPrerequisites g t := by
  have hmem : ∀ x, x ∈ getAllPrerequisites g t ↔ ReachesViaMap g.prerequisites t x := by
    intro x
    unfold getAllPrerequisites
    rw [List.mem_filter]
    constructor
    · intro hx
      exact (closureLoop_mem_iff_reaches g.prerequisites t x).mp hx.1
    · intro hx
      refine ⟨(closureLoop_mem_iff_reaches g.prerequisites t x).mpr hx, ?_⟩
      simpa using reaches_mem_topics g t x hreg hx
  refine ⟨hmem, fun ht => hacyc t ((hmem t).mp ht)⟩

/-- Concrete two-topic graph used to instantiate the C4 hypotheses. -/
def closureSample : KnowledgeGraph :=
  ⟨["a", "b"], [("b", ["a"])], [("a", ["b"])]⟩

theorem closureSample_reach (x y : String)
    (h : ReachesViaMap closureSample.prerequisites x y) : x = "b" ∧ y = "a" := by
  induction h with
  | direct hv =>
      revert hv
      unfold closureSample assocGetList
      by_cases hx : x = "b"
      · rw [if_pos hx]
        intro hv
        simp at hv
        exact ⟨hx, hv⟩
      · rw [if_neg hx]
        intro hv
        simp [assocGetList] at hv
  | step hu hv ih =>
      rw [ih.2] at hv
      simp [closureSample, assocGetList] at hv

theorem closureSample_acyclic : Acyclic closureSample := by
  intro x hx
  obtain ⟨h1, h2⟩ := closureSample_reach x x hx
  rw [h1] at h2
  simp at h2

/-- C4 witness: the closure characterization evaluated on a concrete acyclic
two-topic graph at target "b". -/
theorem getAllPrerequisites_is_transitive_closure_witness :
    EdgesRegistered closureSample ∧ Acyclic closureSample ∧
    ((∀ x, x ∈ getAllPrerequisites closureSample "b" ↔
        ReachesViaMap closureSample.prerequisites "b" x) ∧
     "b" ∉ getAllPrerequisites closureSample "b") :=
  ⟨by unfold EdgesRegistered; decide, closureSample_acyclic,
   getAllPrerequisites_is_transitive_closure closureSample "b"
     (by unfold EdgesRegistered; decide) closureSample_acyclic⟩

/-! ## FIRe ancestor weights (graph.py `get_fire_ancestors`) -/

/-- One FIRe layer expansion (graph.py `next_level` set union): the union, in
encounter order and deduplicated, of the direct prerequisites of a layer. -/
def nextFireLevel (m : List (String × List String)) (level : List String) : List String :=
  level.foldl (fun acc pid => acc ++ (assocGetList m pid).filter (fun x => decide (x ∉ acc))) []

/-- The weight assignment pass of one layer: ids not already weighted receive
the current layer weight (graph.py `if prereq_id not in weights`). -/
def addLayerWeights (level : List String) (w : ℚ) (weights : List (String × ℚ)) :
    List (String × ℚ) :=
  level.foldl (fun ws pid => if (assocGet? ws pid).isSome then ws else ws ++ [(pid, w)]) weights

/-- graph.py `get_fire_ancestors` depth loop: at most `d` layers, stopping
early on an empty layer, halving the weight per layer. -/
def fireLoop (m : List (String × List String)) :
    Nat → List String → ℚ → List (String × ℚ) → List (String × ℚ)
  | 0, _, _, weights => weights
  | d + 1, currentLevel, w, weights =>
      if currentLevel = [] then weights
      else fireLoop m d (nextFireLevel m currentLevel) (w * 0.5) (addLayerWeights currentLevel w weights)

/-- graph.py `get_fire_ancestors`: direct prerequisites start at weight 0.5. -/
def getFireAncestors (g : KnowledgeGraph) (topicId : String) (maxDepth : Nat) :
    List (String × ℚ) :=
  fireLoop g.prerequisites maxDepth (assocGetList g.prerequisites topicId) 0.5 []

/-- Layer `k` of the FIRe traversal of a topic (layer 0 = direct prerequisites). -/
def fireLayer (g : KnowledgeGraph) (topicId : String) (k : Nat) : List String :=
  (nextFireLevel g.prerequisites)^[k] (assocGetList g.prerequisites topicId)

/-- Modelled from the spec: the weight of the depth at which an id is first
encountered, scanning at most `d` further layers from the given one. -/
def layerFirstWeight (m : List (String × List String)) :
    Nat → List String → ℚ → String → Option ℚ
  | 0, _, _, _ => none
  | d + 1, level, w, pid =>
      if level = [] then none
      else if pid ∈ level then some w
      else layerFirstWeight m d (nextFireLevel m level) (w * 0.5) pid

theorem addLayerWeights_get? (level : List String) (w : ℚ) (weights : List (String × ℚ))
    (pid : String) :
    assocGet? (addLayerWeights level w weights) pid =
      match assocGet? weights pid with
      | some w0 => some w0
      | none => if pid ∈ level then some w else none := by
  induction level generalizing weights with
  | nil =>
      simp only [addLayerWeights, List.foldl_nil, List.not_mem_nil, if_false]
      cases assocGet? weights pid <;> rfl
  | cons q rest ih =>
      have hstep : addLayerWeights (q :: rest) w weights =
          addLayerWeights rest w
            (if (assocGet? weights q).isSome then weights else weights ++ [(q, w)]) := rfl
      rw [hstep, ih]
      by_cases hq : pid = q
      · subst hq
        rcases hfind : assocGet? weights pid with _ | w0
        · simp only [Option.isSome_none, Bool.false_eq_true, if_false]
          rw [assocGet?_append, hfind]
          simp [assocGet?]
        · simp only [Option.isSome_some, if_true, hfind]
      · have hother : assocGet?
            (if (assocGet? weights q).isSome then weights else weights ++ [(q, w)]) pid
            = assocGet? weights pid := by
          split
          · rfl
          · rw [assocGet?_append]
            cases hx : assocGet? weights pid
            · simp [assocGet?, hq]
            · rfl
        rw [hother]
        cases assocGet? weights pid
        · simp [List.mem_cons, hq]
        · rfl

theorem fireLoop_get? (m : List (String × List String)) (d : Nat) (level : List String)
    (w : ℚ) (weights : List (String × ℚ)) (pid : String) :
    assocGet? (fireLoop m d level w weights) pid =
      match assocGet? weights pid with
      | some w0 => some w0
      | none => layerFirstWeight m d level w pid := by
  induction d generalizing level w weights with
  | zero =>
      simp only [fireLoop, layerFirstWeight]
      cases assocGet? weights pid <;> rfl
  | succ d ih =>
      by_cases hlvl : level = []
      · simp only [fireLoop, layerFirstWeight, if_pos hlvl]
        cases assocGet? weights pid <;> rfl
      · simp only [fireLoop, layerFirstWeight, if_neg hlvl]
        rw [ih, addLayerWeights_get?]
        rcases hfind : assocGet? weights pid with _ | w0
        · by_cases hmem : pid ∈ level
          · simp [hmem]
          · simp [hmem]
        · rfl

theorem nextFireLevel_nil (m : List (String × List String)) : nextFireLevel m [] = [] := rfl

theorem nextFireLevel_iterate_nil (m : List (String × List String)) (k : Nat) :
    (nextFireLevel m)^[k] ([] : List String) = [] := by
  induction k with
  | zero => rfl
  | succ k ih => rw [Function.iterate_succ_apply, nextFireLevel_nil, ih]

theorem fireLayer_ne_nil_of_mem (m : List (String × List String)) (level : List String)
    (k : Nat) (pid : String) (h : pid ∈ (nextFireLevel m)^[k] level) : level ≠ [] := by
  intro hnil
  subst hnil
  rw [nextFireLevel_iterate_nil] at h
  simp at h

theorem layerFirstWeight_of_first_layer (m : List (String × List String)) (k : Nat) :
    ∀ (d : Nat) (level : List String) (w : ℚ) (pid : String),
      k < d → pid ∈ (nextFireLevel m)^[k] level →
      (∀ j, j < k → pid ∉ (nextFireLevel m)^[j] level) →
      layerFirstWeight m d level w pid = some (w * (0.5 : ℚ) ^ k) := by
  induction k with
  | zero =>
      intro d level w pid hd hmem hfirst
      cases d with
      | zero => omega
      | succ d2 =>
          simp only [Function.iterate_zero_apply] at hmem
          unfold layerFirstWeight
          rw [if_neg (fireLayer_ne_nil_of_mem m level 0 pid (by simpa using hmem)),
            if_pos hmem, pow_zero, mul_one]
  | succ k ih =>
      intro d level w pid hd hmem hfirst
      cases d with
      | zero => omega
      | succ d2 =>
          unfold layerFirstWeight
          rw [if_neg (fireLayer_ne_nil_of_mem m level (k + 1) pid hmem),
            if_neg (by simpa using hfirst 0 (Nat.succ_pos k))]
          rw [Function.iterate_succ_apply] at hmem
          have hrec := ih d2 (nextFireLevel m level) (w * 0.5) pid (by omega)
            hmem (fun j hj => by
              have h2 := hfirst (j + 1) (by omega)
              rwa [Function.iterate_succ_apply] at h2)
          rw [hrec]
          congr 1
          ring

/-- Concrete linear chain t <- p1 <- p2 <- p3 <- p4 <- p5 for the C6 scenario. -/
def chainGraph : KnowledgeGraph :=
  ⟨["t", "p1", "p2", "p3", "p4", "p5"],
   [("t", ["p1"]), ("p1", ["p2"]), ("p2", ["p3"]), ("p3", ["p4"]), ("p4", ["p5"])],
   [("p1", ["t"]), ("p2", ["p1"]), ("p3", ["p2"]), ("p4", ["p3"]), ("p5", ["p4"])]⟩

/-- C6: on the linear chain with the default maxDepth 4, `get_fire_ancestors`
returns exactly the weights 0.5, 0.25, 0.125, 0.0625 for p1..p4, omitting p5;
and in general an id reachable at several depths keeps the weight of the first
layer (depth) at which it was encountered: whenever `pid` first occurs in
layer k (k below maxDepth), its recorded weight is 0.5 x 0.5^k. -/
theorem getFireAncestors_weights (g0 : KnowledgeGraph) :
    getFireAncestors chainGraph "t" 4
      = [("p1", 1/2), ("p2", 1/4), ("p3", 1/8), ("p4", 1/16)] ∧
    (∀ (topicId : String) (maxDepth k : Nat) (pid : String),
      k < maxDepth → pid ∈ fireLayer g0 topicId k →
      (∀ j, j < k → pid ∉ fireLayer g0 topicId j) →
      assocGet? (getFireAncestors g0 topicId maxDepth) pid
        = some (0.5 * (0.5 : ℚ) ^ k)) := by
  constructor
  · simp [getFireAncestors, chainGraph, fireLoop, nextFireLevel, addLayerWeights,
      assocGetList, assocGet?]
    norm_num
  · intro topicId maxDepth k pid hk hmem hfirst
    unfold getFireAncestors
    rw [fireLoop_get?]
    simp only [assocGet?]
    exact layerFirstWeight_of_first_layer g0.prerequisites k maxDepth _ 0.5 pid hk hmem hfirst

/-- C6 witness: the general first-encounter rule evaluated on the chain graph
at pid p2, first encountered in layer 1. -/
theorem getFireAncestors_weights_witness :
    ((1 : Nat) < 4 ∧ "p2" ∈ fireLayer chainGraph "t" 1 ∧
      (∀ j, j < 1 → "p2" ∉ fireLayer chainGraph "t" j)) ∧
    assocGet? (getFireAncestors chainGraph "t" 4) "p2" = some (0.5 * (0.5 : ℚ) ^ 1) :=
  ⟨⟨by decide, by decide, by decide⟩,
   (getFireAncestors_weights chainGraph).2 "t" 4 1 "p2" (by decide) (by decide) (by decide)⟩

/-! ## Ebbinghaus retention (ebbinghaus.py `calculate_retention`)

The float computation uses the transcendental exponential; it is embedded over
the real numbers. -/

/-- ebbinghaus.py `calculate_retention`: exp(-t/S) clamped to [0,1]; a
nonpositive stability yields 0. -/
noncomputable def calculateRetention (daysSinceReview stability : ℝ) : ℝ :=
  if stability ≤ 0 then 0
  else max 0 (min 1 (Real.exp (-daysSinceReview / stability)))

theorem calculateRetention_eq_exp (t S : ℝ) (hS : 0 < S) (ht : 0 ≤ t) :
    calculateRetention t S = Real.exp (-t / S) := by
  unfold calculateRetention
  rw [if_neg (not_le.mpr hS)]
  rw [min_eq_right (Real.exp_le_one_iff.mpr (div_nonpos_iff.mpr (Or.inr ⟨neg_nonpos.mpr ht,
    hS.le⟩)))]
  exact max_eq_right (Real.exp_pos _).le

/-- C7: the retention function equals exp(-t/S) clamped to [0,1], is 0 for
nonpositive stability, takes value 1 at t = 0, and for each fixed positive
stability is strictly decreasing in nonnegative elapsed time. -/
theorem calculateRetention_spec :
    (∀ t S : ℝ, 0 < S → calculateRetention t S = max 0 (min 1 (Real.exp (-t / S)))) ∧
    (∀ t S : ℝ, S ≤ 0 → calculateRetention t S = 0) ∧
    (∀ S : ℝ, 0 < S → calculateRetention 0 S = 1) ∧
    (∀ S t1 t2 : ℝ, 0 < S → 0 ≤ t1 → t1 < t2 →
      calculateRetention t2 S < calculateRetention t1 S) := by
  refine ⟨?_, ?_, ?_, ?_⟩
  · intro t S hS
    unfold calculateRetention
    rw [if_neg (not_le.mpr hS)]
  · intro t S hS
    unfold calculateRetention
    rw [if_pos hS]
  · intro S hS
    rw [calculateRetention_eq_exp 0 S hS le_rfl]
    simp
  · intro S t1 t2 hS ht1 ht2
    rw [calculateRetention_eq_exp t1 S hS ht1,
      calculateRetention_eq_exp t2 S hS (le_trans ht1 ht2.le)]
    exact Real.exp_lt_exp_of_lt (div_lt_div_of_pos_right (neg_lt_neg ht2) hS)

/-- C7 witness: the retention properties evaluated at stability 1 (and -1 for
the nonpositive branch) and times 0 and 1. -/
theorem calculateRetention_spec_witness :
    ((0 : ℝ) < 1 ∧ (0 : ℝ) ≤ 0 ∧ (-1 : ℝ) ≤ 0) ∧
    calculateRetention 1 1 < calculateRetention 0 1 ∧
    calculateRetention 0 1 = 1 ∧
    calculateRetention 0 (-1) = 0 :=
  ⟨⟨one_pos, le_rfl, by norm_num⟩,
   calculateRetention_spec.2.2.2 1 0 1 one_pos le_rfl one_pos,
   calculateRetention_spec.2.2.1 1 one_pos,
   calculateRetention_spec.2.1 0 (-1) (by norm_num)⟩

/-! ## Review scheduler (scheduler.py `get_due_reviews`) -/

/-- The validation error of ebbinghaus.py `optimal_review_interval`
(ValueError for a target retention outside (0,1); the spec's InvalidTarget). -/
inductive SchedError where
  | invalidTarget
deriving Repr, DecidableEq

/-- ebbinghaus.py `optimal_review_interval`: -S ln(target), rejecting targets
outside the open interval (0,1). -/
noncomputable def optimalReviewInterval (targetRetention stability : ℝ) :
    Except SchedError ℝ :=
  if targetRetention ≤ 0 ∨ targetRetention ≥ 1 then Except.error SchedError.invalidTarget
  else Except.ok (-stability * Real.log targetRetention)

/-- ebbinghaus.py `get_review_priority`. -/
noncomputable def getReviewPriority (retention levelImportance daysOverdue : ℝ) : ℝ :=
  (1 - retention) ^ 2 * levelImportance * (1 + min 1 (daysOverdue / 7))

/-- ebbinghaus.py `ReviewSchedule.next_review_date` with the schedule's
interval clamp [minInterval, maxInterval]; timestamps are real days. -/
noncomputable def nextReviewDate (targetRetention minInterval maxInterval lastReview
    stability : ℝ) : Except SchedError ℝ :=
  match optimalReviewInterval targetRetention stability with
  | Except.error e => Except.error e
  | Except.ok interval => Except.ok (lastReview + max minInterval (min maxInterval interval))

/-- scheduler.py `ReviewItem` (raw values; rounding happens only in to_dict).
The mastery level is kept as its integer rank rather than its lowercase name. -/
structure ReviewItem where
  topicId : String
  retention : ℝ
  priorityScore : ℝ
  daysSinceReview : ℝ
  optimalReviewDate : Option ℝ
  masteryLevel : Int

/-- One iteration of the scheduler.py `get_due_reviews` loop: the item built
for a record, `none` when the record is skipped, or the propagated error. -/
noncomputable def dueItemFor (now : ℚ) (threshold targetRetention : ℝ)
    (r : MasteryRecord) : Except SchedError (Option ReviewItem) :=
  if r.level = 0 then Except.ok none
  else
    let daysElapsed : ℝ :=
      match r.lastReview with
      | some t => ((now - t : ℚ) : ℝ)
      | none => 0
    let retention : ℝ :=
      match r.lastReview with
      | some _ => calculateRetention daysElapsed (r.stability : ℝ)
      | none => 0
    if retention ≥ threshold then Except.ok none
    else
      match optimalReviewInterval threshold (r.stability : ℝ) with
      | Except.error e => Except.error e
      | Except.ok interval =>
        let levelWeight : ℝ := 1 + (r.level : ℝ) * 0.2
        let daysOverdue : ℝ := max 0 (daysElapsed - interval)
        let priorityScore := getReviewPriority retention levelWeight daysOverdue
        match r.lastReview with
        | some t =>
          match nextReviewDate targetRetention 0.5 180 ((t : ℚ) : ℝ) (r.stability : ℝ) with
          | Except.error e => Except.error e
          | Except.ok date =>
              Except.ok (some ⟨r.topicId, retention, priorityScore, daysElapsed,
                some date, r.level⟩)
        | none =>
            Except.ok (some ⟨r.topicId, retention, priorityScore, daysElapsed,
              none, r.level⟩)

/-- The collection pass of `get_due_reviews` over the record table, in
iteration order, with the Python exception propagating out. -/
noncomputable def collectDueItems (now : ℚ) (threshold targetRetention : ℝ) :
    List (String × MasteryRecord) → Except SchedError (List ReviewItem)
  | [] => Except.ok []
  | (_, r) :: rest =>
      match dueItemFor now threshold targetRetention r with
      | Except.error e => Except.error e
      | Except.ok none => collectDueItems now threshold targetRetention rest
      | Except.ok (some item) =>
          match collectDueItems now threshold targetRetention rest with
          | Except.error e => Except.error e
          | Except.ok items => Except.ok (item :: items)

/-- Stable insertion into a priority-descending list (models list.sort with
reverse=True up to the unspecified tie order). -/
noncomputable def insertByPriority (item : ReviewItem) :
    List ReviewItem → List ReviewItem
  | [] => [item]
  | x :: rest =>
      if x.priorityScore < item.priorityScore then item :: x :: rest
      else x :: insertByPriority item rest

/-- Sort review items by descending priority. -/
noncomputable def sortByPriority : List ReviewItem → List ReviewItem
  | [] => []
  | x :: rest => insertByPriority x (sortByPriority rest)

/-- scheduler.py `get_due_reviews`: collect, sort by priority, truncate. -/
noncomputable def getDueReviews (records : List (String × MasteryRecord)) (now : ℚ)
    (limit : Nat) (threshold targetRetention : ℝ) : Except SchedError (List ReviewItem) :=
  match collectDueItems now threshold targetRetention records with
  | Except.error e => Except.error e
  | Except.ok items => Except.ok ((sortByPriority items).take limit)

theorem mem_insertByPriority (item x : ReviewItem) (l : List ReviewItem) :
    x ∈ insertByPriority item l ↔ x = item ∨ x ∈ l := by
  induction l with
  | nil => simp [insertByPriority]
  | cons y rest ih =>
      unfold insertByPriority
      split
      · simp
      · simp only [List.mem_cons, ih]
        tauto

theorem mem_sortByPriority (x : ReviewItem) (l : List ReviewItem) :
    x ∈ sortByPriority l ↔ x ∈ l := by
  induction l with
  | nil => simp [sortByPriority]
  | cons y rest ih =>
      unfold sortByPriority
      rw [mem_insertByPriority]
      simp [ih]

/-- C10 counterexample: at threshold = 1 (which is greater than 0), a record
with level Introduced and no last-review reaches the priority computation and
`optimal_review_interval` rejects the target, so `get_due_reviews` raises
instead of returning a due list containing the record. -/
theorem getDueReviews_threshold_one_raises :
    getDueReviews [("p", MasteryRecord.mk "p" 1 none 0 0 0 [] 1 none)] 0 10 1 0.85
      = Except.error SchedError.invalidTarget := by
  norm_num [getDueReviews, collectDueItems, dueItemFor, optimalReviewInterval]

/-- C10 (amended): for every record whose level is not Unknown but whose
last-review timestamp is absent, `get_due_reviews` with a valid threshold
(0 < threshold < 1) and nonnegative stability treats its retention as 0 and
its elapsed time as 0, hence days-overdue 0 and priority equal to the bare
level weight 1 + 0.2 x level, and the record appears in the collected due list
(and in the sorted list, subject only to the limit truncation), with its
optimal review date absent. -/
theorem dueReviews_include_never_reviewed (records : List (String × MasteryRecord))
    (now : ℚ) (threshold targetRetention : ℝ) (key : String) (r : MasteryRecord)
    (hmem : (key, r) ∈ records) (hlvl : r.level ≠ 0) (hlr : r.lastReview = none)
    (hth0 : 0 < threshold) (hth1 : threshold < 1) (hstab : 0 ≤ r.stability) :
    dueItemFor now threshold targetRetention r
      = Except.ok (some ⟨r.topicId, 0, 1 + (r.level : ℝ) * 0.2, 0, none, r.level⟩) ∧
    (∀ items, collectDueItems now threshold targetRetention records = Except.ok items →
      (⟨r.topicId, 0, 1 + (r.level : ℝ) * 0.2, 0, none, r.level⟩ : ReviewItem) ∈ items) ∧
    (∀ items, collectDueItems now threshold targetRetention records = Except.ok items →
      (⟨r.topicId, 0, 1 + (r.level : ℝ) * 0.2, 0, none, r.level⟩ : ReviewItem)
        ∈ sortByPriority items) := by
  have hstabR : (0 : ℝ) ≤ (r.stability : ℝ) := by exact_mod_cast hstab
  have hlog : Real.log threshold < 0 := Real.log_neg hth0 hth1
  have hintv : 0 ≤ -(r.stability : ℝ) * Real.log threshold := by
    rw [neg_mul_comm]
    exact mul_nonneg hstabR (neg_nonneg.mpr hlog.le)
  have hover : max (0 : ℝ) (0 - -(r.stability : ℝ) * Real.log threshold) = 0 :=
    max_eq_left (by linarith)
  have hpr : getReviewPriority 0 (1 + (r.level : ℝ) * 0.2) 0
      = 1 + (r.level : ℝ) * 0.2 := by
    unfold getReviewPriority
    norm_num
  have hitem : dueItemFor now threshold targetRetention r
      = Except.ok (some ⟨r.topicId, 0, 1 + (r.level : ℝ) * 0.2, 0, none, r.level⟩) := by
    unfold dueItemFor
    rw [if_neg hlvl]
    simp only [hlr]
    rw [if_neg (not_le.mpr hth0)]
    unfold optimalReviewInterval
    rw [if_neg (by push_neg; exact ⟨hth0, hth1⟩)]
    simp only
    rw [hover, hpr]
  refine ⟨hitem, ?_, ?_⟩
  · intro items hitems
    induction records generalizing items with
    | nil => simp at hmem
    | cons p rest ih =>
        rcases List.mem_cons.mp hmem with hp | hp
        · have hfst : p.2 = r := by rw [← hp]
          unfold collectDueItems at hitems
          rcases p with ⟨k2, r2⟩
          simp only at hfst
          rw [hfst, hitem] at hitems
          rcases hrest : collectDueItems now threshold targetRetention rest with e | items2
          · rw [hrest] at hitems
            simp at hitems
          · rw [hrest] at hitems
            simp only [Except.ok.injEq] at hitems
            rw [← hitems]
            exact List.mem_cons_self _ _
        · unfold collectDueItems at hitems
          rcases p with ⟨k2, r2⟩
          rcases hd : dueItemFor now threshold targetRetention r2 with e | oi
          · rw [hd] at hitems
            simp at hitems
          · rw [hd] at hitems
            rcases oi with _ | item2
            · exact ih hp items hitems
            · rcases hrest : collectDueItems now threshold targetRetention rest with e | items2
              · rw [hrest] at hitems
                simp at hitems
              · rw [hrest] at hitems
                simp only [Except.ok.injEq] at hitems
                rw [← hitems]
                exact List.mem_cons_of_mem _ (ih hp items2 hrest)
  · intro items hitems
    rw [mem_sortByPriority]
    -- reuse the collected-list membership
    induction records generalizing items with
    | nil => simp at hmem
    | cons p rest ih =>
        rcases List.mem_cons.mp hmem with hp | hp
        · have hfst : p.2 = r := by rw [← hp]
          unfold collectDueItems at hitems
          rcases p with ⟨k2, r2⟩
          simp only at hfst
          rw [hfst, hitem] at hitems
          rcases hrest : collectDueItems now threshold targetRetention rest with e | items2
          · rw [hrest] at hitems
            simp at hitems
          · rw [hrest] at hitems
            simp only [Except.ok.injEq] at hitems
            rw [← hitems]
            exact List.mem_cons_self _ _
        · unfold collectDueItems at hitems
          rcases p with ⟨k2, r2⟩
          rcases hd : dueItemFor now threshold targetRetention r2 with e | oi
          · rw [hd] at hitems
            simp at hitems
          · rw [hd] at hitems
            rcases oi with _ | item2
            · exact ih hp items hitems
            · rcases hrest : collectDueItems now threshold targetRetention rest with e | items2
              · rw [hrest] at hitems
                simp at hitems
              · rw [hrest] at hitems
                simp only [Except.ok.injEq] at hitems
                rw [← hitems]
                exact List.mem_cons_of_mem _ (ih hp items2 hrest)

/-- C10 witness: the inclusion evaluated on a one-record table with threshold
0.5. -/
theorem dueReviews_include_never_reviewed_witness :
    (("p", MasteryRecord.mk "p" 1 none 0 0 0 [] 1 none)
        ∈ [("p", MasteryRecord.mk "p" 1 none 0 0 0 [] 1 none)] ∧
     (MasteryRecord.mk "p" 1 none 0 0 0 [] 1 none).level ≠ 0 ∧
     (MasteryRecord.mk "p" 1 none 0 0 0 [] 1 none).lastReview = none ∧
     (0 : ℝ) < 0.5 ∧ (0.5 : ℝ) < 1 ∧
     (0 : ℚ) ≤ (MasteryRecord.mk "p" 1 none 0 0 0 [] 1 none).stability) ∧
    (dueItemFor 0 0.5 0.85 (MasteryRecord.mk "p" 1 none 0 0 0 [] 1 none)
      = Except.ok (some ⟨"p", 0, 1 + ((1 : Int) : ℝ) * 0.2, 0, none, 1⟩) ∧
     (∀ items, collectDueItems 0 0.5 0.85
          [("p", MasteryRecord.mk "p" 1 none 0 0 0 [] 1 none)] = Except.ok items →
        (⟨"p", 0, 1 + ((1 : Int) : ℝ) * 0.2, 0, none, 1⟩ : ReviewItem) ∈ items) ∧
     (∀ items, collectDueItems 0 0.5 0.85
          [("p", MasteryRecord.mk "p" 1 none 0 0 0 [] 1 none)] = Except.ok items →
        (⟨"p", 0, 1 + ((1 : Int) : ℝ) * 0.2, 0, none, 1⟩ : ReviewItem)
          ∈ sortByPriority items)) :=
  ⟨⟨List.mem_cons_self _ _, by decide, rfl, by norm_num, by norm_num, by norm_num⟩,
   dueReviews_include_never_reviewed
     [("p", MasteryRecord.mk "p" 1 none 0 0 0 [] 1 none)] 0 0.5 0.85 "p"
     (MasteryRecord.mk "p" 1 none 0 0 0 [] 1 none)
     (List.mem_cons_self _ _) (by decide) rfl (by norm_num) (by norm_num) (by norm_num)⟩

/-! ## Learning path (graph.py `get_learning_path`, `_topological_sort`) -/

/-- graph.py in-degree construction: each subset member paired with the number
of its direct prerequisites lying in the subset (Python int, embedded as ℤ so
that decrements below zero are preserved). -/
def buildInDegree (g : KnowledgeGraph) (topicIds : List String) : List (String × Int) :=
  topicIds.map (fun tid =>
    (tid, (((assocGetList g.prerequisites tid).filter
      (fun x => decide (x ∈ topicIds))).length : Int)))

/-- graph.py `_topological_sort` inner for-loop: walk the dependents of the
emitted node, decrement the subset members and enqueue those reaching zero. -/
def kahnStepDeps (deps : List String) (indeg : List (String × Int)) (queue : List String) :
    List (String × Int) × List String :=
  match deps with
  | [] => (indeg, queue)
  | d :: rest =>
      match assocGet? indeg d with
      | none => kahnStepDeps rest indeg queue
      | some c =>
          kahnStepDeps rest (assocSet indeg d (c - 1))
            (if c - 1 = 0 then queue ++ [d] else queue)

/-- Number of in-degree entries holding a positive count; together with the
queue length it bounds the remaining loop iterations: a pop shortens the
queue and every enqueue retires one positive count. -/
def countPos (indeg : List (String × Int)) : Nat :=
  (indeg.filter (fun p => decide (0 < p.2))).length

theorem countPos_cons (p : String × Int) (rest : List (String × Int)) :
    countPos (p :: rest) = (if 0 < p.2 then 1 else 0) + countPos rest := by
  by_cases h : 0 < p.2
  · simp [countPos, List.filter_cons, h, Nat.add_comm]
  · simp [countPos, List.filter_cons, h]

theorem countPos_assocSet_dec (indeg : List (String × Int)) (d : String) (c : Int)
    (hfind : assocGet? indeg d = some c) :
    countPos (assocSet indeg d (c - 1)) + (if c - 1 = 0 then 1 else 0) ≤ countPos indeg := by
  induction indeg with
  | nil => simp [assocGet?] at hfind
  | cons p rest ih =>
      obtain ⟨k, v⟩ := p
      by_cases hd : d = k
      · have hval : v = c := by
          simpa [assocGet?, hd] using hfind
        unfold assocSet
        rw [if_pos hd, countPos_cons, countPos_cons, hval]
        split_ifs <;> omega
      · have hfind2 : assocGet? rest d = some c := by
          simpa [assocGet?, hd] using hfind
        unfold assocSet
        rw [if_neg hd, countPos_cons, countPos_cons]
        have := ih hfind2
        omega

theorem kahnStepDeps_measure (deps : List String) (indeg : List (String × Int))
    (queue : List String) :
    (kahnStepDeps deps indeg queue).2.length + countPos (kahnStepDeps deps indeg queue).1
      ≤ queue.length + countPos indeg := by
  induction deps generalizing indeg queue with
  | nil => simp [kahnStepDeps]
  | cons d rest ih =>
      unfold kahnStepDeps
      rcases hfind : assocGet? indeg d with _ | c
      · exact ih indeg queue
      · refine le_trans (ih _ _) ?_
        have hq2 : (if c - 1 = 0 then queue ++ [d] else queue).length
            = queue.length + (if c - 1 = 0 then 1 else 0) := by
          split_ifs <;> simp
        rw [hq2]
        have := countPos_assocSet_dec indeg d c hfind
        omega

/-- graph.py `_topological_sort` while-loop (Kahn's algorithm); emits into a
reversed accumulator. -/
def kahnLoop (dep : List (String × List String)) (indeg : List (String × Int))
    (queue : List String) (accRev : List String) : List String :=
  match queue with
  | [] => accRev.reverse
  | current :: rest =>
      kahnLoop dep (kahnStepDeps (assocGetList dep current) indeg rest).1
        (kahnStepDeps (assocGetList dep current) indeg rest).2 (current :: accRev)
termination_by queue.length + countPos indeg
decreasing_by
  · have := kahnStepDeps_measure (assocGetList dep p) indeg rest
    simp only [List.length_cons]
    omega

/-- graph.py `_topological_sort`: build in-degrees, seed the queue with the
zero-in-degree members (in insertion order) and run the loop. -/
def topologicalSort (g : KnowledgeGraph) (topicIds : List String) : List String :=
  kahnLoop g.dependents (buildInDegree g topicIds)
    (((buildInDegree g topicIds).filter (fun p => decide (p.2 = 0))).map Prod.fst) []

/-- graph.py `get_learning_path`: ancestor set plus the target, minus the
completed ids, topologically sorted; unknown targets are rejected. -/
def getLearningPath (g : KnowledgeGraph) (targetId : String)
    (completedIds : List String) : Option GraphError × List String :=
  if targetId ∉ g.topics then (some (GraphError.unknownTopic targetId), [])
  else
    let needed := getAllPrerequisites g targetId
    let neededIds := if targetId ∈ needed then needed else needed ++ [targetId]
    let toLearn := neededIds.filter (fun x => decide (x ∉ completedIds))
    (none, topologicalSort g toLearn)

theorem assocSet_keys_of_found {α : Type} (m : List (String × α)) (k : String) (v c : α)
    (h : assocGet? m k = some c) :
    (assocSet m k v).map Prod.fst = m.map Prod.fst := by
  induction m with
  | nil => simp [assocGet?] at h
  | cons p rest ih =>
      obtain ⟨k2, w⟩ := p
      by_cases hk : k = k2
      · unfold assocSet
        rw [if_pos hk]
        simp
      · unfold assocSet
        rw [if_neg hk]
        have h2 : assocGet? rest k = some c := by simpa [assocGet?, hk] using h
        simp [ih h2]

theorem kahnStepDeps_keys (deps : List String) (indeg : List (String × Int))
    (queue : List String) :
    (kahnStepDeps deps indeg queue).1.map Prod.fst = indeg.map Prod.fst := by
  induction deps generalizing indeg queue with
  | nil => rfl
  | cons d rest ih =>
      unfold kahnStepDeps
      rcases hfind : assocGet? indeg d with _ | c
      · exact ih indeg queue
      · rw [ih]
        exact assocSet_keys_of_found indeg d (c - 1) c hfind

theorem kahnStepDeps_get? (deps : List String) (indeg : List (String × Int))
    (queue : List String) (k : String) :
    assocGet? (kahnStepDeps deps indeg queue).1 k
      = (assocGet? indeg k).map (fun c => c - (deps.count k : Int)) := by
  induction deps generalizing indeg queue with
  | nil =>
      unfold kahnStepDeps
      cases assocGet? indeg k <;> simp
  | cons d rest ih =>
      unfold kahnStepDeps
      rcases hfind : assocGet? indeg d with _ | c
      · by_cases hk : k = d
        · subst hk
          rw [ih, hfind]
          simp
        · rw [ih]
          have hdk : ¬ d = k := fun h => hk h.symm
          have hcnt : List.count k (d :: rest) = List.count k rest := by
            simp [List.count_cons, hdk]
          rw [hcnt]
      · by_cases hk : k = d
        · subst hk
          rw [ih, assocGet?_assocSet_self, hfind]
          have hcnt : List.count k (k :: rest) = List.count k rest + 1 := by
            simp [List.count_cons]
          rw [hcnt]
          simp only [Option.map_some']
          rw [Option.some.injEq]
          push_cast
          ring
        · rw [ih, assocGet?_assocSet_ne _ _ _ _ hk]
          have hdk : ¬ d = k := fun h => hk h.symm
          have hcnt : List.count k (d :: rest) = List.count k rest := by
            simp [List.count_cons, hdk]
          rw [hcnt]

theorem kahnStepDeps_queue (deps : List String) (indeg : List (String × Int))
    (queue : List String) (hnd : deps.Nodup) :
    (kahnStepDeps deps indeg queue).2
      = queue ++ deps.filter (fun d => decide (assocGet? indeg d = some 1)) := by
  induction deps generalizing indeg queue with
  | nil => simp [kahnStepDeps]
  | cons d rest ih =>
      obtain ⟨hdrest, hndrest⟩ := List.nodup_cons.mp hnd
      unfold kahnStepDeps
      rcases hfind : assocGet? indeg d with _ | c
      · rw [ih indeg queue hndrest, List.filter_cons]
        simp [hfind]
      · have hagree : rest.filter (fun e => decide (assocGet? (assocSet indeg d (c - 1)) e
            = some 1)) = rest.filter (fun e => decide (assocGet? indeg e = some 1)) := by
          apply List.filter_congr
          intro e he
          have hne : e ≠ d := fun h => hdrest (h ▸ he)
          rw [assocGet?_assocSet_ne _ _ _ _ hne]
        rw [ih _ _ hndrest, hagree, List.filter_cons]
        by_cases hc : c = 1
        · have hco : c - 1 = 0 := by omega
          simp only [hfind, hc, if_pos hco]
          simp
        · have hco : ¬ c - 1 = 0 := by omega
          rw [if_neg hco]
          simp [hfind, hc]

theorem length_filter_le_of_imp (l : List String) (p q : String → Prop)
    [DecidablePred p] [DecidablePred q] (himp : ∀ y, q y → p y) :
    (l.filter (fun y => decide (q y))).length ≤ (l.filter (fun y => decide (p y))).length := by
  induction l with
  | nil => simp
  | cons y rest ih =>
      rw [List.filter_cons, List.filter_cons]
      by_cases hq : q y
      · rw [if_pos (by simp [hq]), if_pos (by simp [himp y hq])]
        simpa using ih
      · rw [if_neg (by simp [hq])]
        by_cases hp : p y
        · rw [if_pos (by simp [hp])]
          exact le_trans ih (by simp)
        · rw [if_neg (by simp [hp])]
          exact ih

theorem all_of_length_filter_eq (l : List String) (p q : String → Prop)
    [DecidablePred p] [DecidablePred q] (himp : ∀ y, q y → p y)
    (hlen : (l.filter (fun y => decide (p y))).length
      = (l.filter (fun y => decide (q y))).length) :
    ∀ y ∈ l, p y → q y := by
  induction l with
  | nil => simp
  | cons z rest ih =>
      rw [List.filter_cons, List.filter_cons] at hlen
      by_cases hqz : q z
      · have hpz : p z := himp z hqz
        rw [if_pos (by simp [hpz]), if_pos (by simp [hqz])] at hlen
        simp only [List.length_cons] at hlen
        intro y hy hpy
        rcases List.mem_cons.mp hy with hy | hy
        · exact hy ▸ hqz
        · exact ih (by omega) y hy hpy
      · by_cases hpz : p z
        · rw [if_pos (by simp [hpz]), if_neg (by simp [hqz])] at hlen
          simp only [List.length_cons] at hlen
          have hle := length_filter_le_of_imp rest p q himp
          exfalso
          omega
        · rw [if_neg (by simp [hpz]), if_neg (by simp [hqz])] at hlen
          intro y hy hpy
          rcases List.mem_cons.mp hy with hy | hy
          · exact absurd (hy ▸ hpy) hpz
          · exact ih hlen y hy hpy

theorem length_filter_mem_cons (l acc : List String) (a : String)
    (hl : l.Nodup) (ha : a ∉ acc) :
    (l.filter (fun y => decide (y ∈ a :: acc))).length
      = (l.filter (fun y => decide (y ∈ acc))).length + (if a ∈ l then 1 else 0) := by
  induction l with
  | nil => simp
  | cons y rest ih =>
      obtain ⟨hyrest, hrest⟩ := List.nodup_cons.mp hl
      have hif : (if a ∈ y :: rest then (1 : Nat) else 0)
          = (if y = a then 1 else 0) + (if a ∈ rest then 1 else 0) := by
        by_cases hya : y = a
        · rw [if_pos (List.mem_cons.mpr (Or.inl hya.symm)), if_pos hya,
            if_neg (hya ▸ hyrest)]
        · rw [if_neg hya]
          by_cases har : a ∈ rest
          · rw [if_pos (List.mem_cons.mpr (Or.inr har)), if_pos har]
          · rw [if_neg har, if_neg ?hna]
            case hna =>
              rw [List.mem_cons]
              rintro (h | h)
              · exact hya h.symm
              · exact har h
      rw [List.filter_cons, List.filter_cons, hif]
      by_cases hya : y = a
      · rw [if_pos (by simp [hya]), if_neg (by simp [hya, ha]), if_pos hya]
        simp only [List.length_cons]
        rw [ih hrest]
        omega
      · have hmemiff : (y ∈ a :: acc) ↔ y ∈ acc :=
          ⟨fun h => (List.mem_cons.mp h).resolve_left hya, fun h => List.mem_cons.mpr (Or.inr h)⟩
        rw [if_neg hya]
        by_cases hyacc : y ∈ acc
        · rw [if_pos (by simp [hmemiff, hyacc]), if_pos (by simp [hyacc])]
          simp only [List.length_cons]
          rw [ih hrest]
          omega
        · rw [if_neg (by simp [hmemiff, hyacc]), if_neg (by simp [hyacc]), ih hrest]
          omega

theorem assocGet?_key_of_some {α : Type} {m : List (String × α)} {k : String} {v : α}
    (h : assocGet? m k = some v) : k ∈ m.map Prod.fst :=
  List.mem_map.mpr ⟨(k, v), assocGet?_mem h, rfl⟩

theorem assocGet?_isSome_of_key {α : Type} (m : List (String × α)) (k : String)
    (h : k ∈ m.map Prod.fst) : ∃ v, assocGet? m k = some v := by
  induction m with
  | nil => simp at h
  | cons p rest ih =>
      by_cases hk : k = p.1
      · exact ⟨p.2, by simp [assocGet?, hk]⟩
      · rcases List.mem_map.mp h with ⟨q, hq, hfst⟩
        rcases List.mem_cons.mp hq with hq | hq
        · exact absurd (hfst ▸ congrArg Prod.fst hq) hk
        · obtain ⟨v, hv⟩ := ih (List.mem_map.mpr ⟨q, hq, hfst⟩)
          exact ⟨v, by simpa [assocGet?, hk] using hv⟩

/-- The prerequisites of a node restricted to the sorting subset. -/
def prereqIn (P : List (String × List String)) (S : List String) (x : String) : List String :=
  (assocGetList P x).filter (fun y => decide (y ∈ S))

/-- The loop invariant of Kahn's algorithm as run by `_topological_sort` over
prerequisite map P and subset S: the key list is fixed, every count records
how many in-subset prerequisites are still unemitted, queued and emitted nodes
sit at nonpositive counts, queued nodes have all in-subset prerequisites
already emitted, and the emitted (reversed) list is topologically ordered. -/
structure KahnInv (P : List (String × List String)) (S : List String)
    (indeg : List (String × Int)) (queue accRev : List String) : Prop where
  keys : indeg.map Prod.fst = S
  count : ∀ k c, assocGet? indeg k = some c →
    c = ((prereqIn P S k).length : Int)
      - (((assocGetList P k).filter (fun y => decide (y ∈ accRev))).length : Int)
  accS : ∀ x ∈ accRev, x ∈ S
  queueS : ∀ x ∈ queue, x ∈ S
  qnodup : queue.Nodup
  anodup : accRev.Nodup
  qdisj : ∀ x ∈ queue, x ∉ accRev
  nonpos : ∀ x, x ∈ queue ∨ x ∈ accRev → ∀ c, assocGet? indeg x = some c → c ≤ 0
  qready : ∀ x ∈ queue, ∀ y ∈ assocGetList P x, y ∈ S → y ∈ accRev
  aorder : ∀ l2 x l1, accRev = l2 ++ x :: l1 → ∀ y ∈ assocGetList P x, y ∈ S → y ∈ l1

theorem kahnInv_step (P D : List (String × List String)) (S : List String)
    (hmirror : ∀ x y, y ∈ assocGetList P x ↔ x ∈ assocGetList D y)
    (hPn : ∀ x, (assocGetList P x).Nodup)
    (hDn : ∀ x, (assocGetList D x).Nodup)
    (indeg : List (String × Int)) (current : String) (rest accRev : List String)
    (hinv : KahnInv P S indeg (current :: rest) accRev) :
    KahnInv P S (kahnStepDeps (assocGetList D current) indeg rest).1
      (kahnStepDeps (assocGetList D current) indeg rest).2 (current :: accRev) := by
  have hcurS : current ∈ S := hinv.queueS current (List.mem_cons_self _ _)
  have hcurnA : current ∉ accRev := hinv.qdisj current (List.mem_cons_self _ _)
  have hcurnR : current ∉ rest := (List.nodup_cons.mp hinv.qnodup).1
  have hrestnd : rest.Nodup := (List.nodup_cons.mp hinv.qnodup).2
  have hdepsnd : (assocGetList D current).Nodup := hDn current
  have hqeq : (kahnStepDeps (assocGetList D current) indeg rest).2
      = rest ++ (assocGetList D current).filter
          (fun d => decide (assocGet? indeg d = some 1)) :=
    kahnStepDeps_queue _ indeg rest hdepsnd
  have hgeq : ∀ k, assocGet? (kahnStepDeps (assocGetList D current) indeg rest).1 k
      = (assocGet? indeg k).map
          (fun c => c - ((assocGetList D current).count k : Int)) :=
    fun k => kahnStepDeps_get? _ indeg rest k
  have hcnt : ∀ k, ((assocGetList D current).count k : Int)
      = if current ∈ assocGetList P k then 1 else 0 := by
    intro k
    by_cases hk : k ∈ assocGetList D current
    · rw [if_pos ((hmirror k current).mpr hk)]
      exact_mod_cast List.count_eq_one_of_mem hdepsnd hk
    · rw [if_neg (fun h => hk ((hmirror k current).mp h))]
      exact_mod_cast List.count_eq_zero_of_not_mem hk
  have hlenacc : ∀ k, ((assocGetList P k).filter
        (fun y => decide (y ∈ current :: accRev))).length
      = ((assocGetList P k).filter (fun y => decide (y ∈ accRev))).length
        + (if current ∈ assocGetList P k then 1 else 0) :=
    fun k => length_filter_mem_cons (assocGetList P k) accRev current (hPn k) hcurnA
  have hnew1 : ∀ d ∈ (assocGetList D current).filter
      (fun d => decide (assocGet? indeg d = some 1)), assocGet? indeg d = some 1 := by
    intro d hd
    have := (List.mem_filter.mp hd).2
    exact of_decide_eq_true this
  have hnewdeps : ∀ d ∈ (assocGetList D current).filter
      (fun d => decide (assocGet? indeg d = some 1)), d ∈ assocGetList D current :=
    fun d hd => (List.mem_filter.mp hd).1
  have hnewS : ∀ d ∈ (assocGetList D current).filter
      (fun d => decide (assocGet? indeg d = some 1)), d ∈ S := by
    intro d hd
    exact hinv.keys ▸ assocGet?_key_of_some (hnew1 d hd)
  refine ⟨?_, ?_, ?_, ?_, ?_, ?_, ?_, ?_, ?_, ?_⟩
  · rw [kahnStepDeps_keys]
    exact hinv.keys
  · intro k c2 hc2
    rw [hgeq k] at hc2
    rcases hfind : assocGet? indeg k with _ | c
    · rw [hfind] at hc2
      simp at hc2
    · rw [hfind] at hc2
      simp only [Option.map_some', Option.some.injEq] at hc2
      have hcountk := hinv.count k c hfind
      rw [hlenacc k]
      rw [hcnt k] at hc2
      by_cases hcp : current ∈ assocGetList P k
      · rw [if_pos hcp] at hc2 ⊢
        omega
      · rw [if_neg hcp] at hc2 ⊢
        omega
  · intro x hx
    rcases List.mem_cons.mp hx with hx | hx
    · exact hx ▸ hcurS
    · exact hinv.accS x hx
  · intro x hx
    rw [hqeq] at hx
    rcases List.mem_append.mp hx with hx | hx
    · exact hinv.queueS x (List.mem_cons_of_mem _ hx)
    · exact hnewS x hx
  · rw [hqeq]
    refine List.Nodup.append hrestnd (List.Nodup.filter _ hdepsnd) ?_
    intro x hxr hxn
    have h1 := hnew1 x hxn
    have := hinv.nonpos x (Or.inl (List.mem_cons_of_mem _ hxr)) 1 h1
    omega
  · exact List.nodup_cons.mpr ⟨hcurnA, hinv.anodup⟩
  · intro x hx
    rw [hqeq] at hx
    intro hmem
    rcases List.mem_append.mp hx with hx | hx
    · rcases List.mem_cons.mp hmem with h | h
      · exact hcurnR (h ▸ hx)
      · exact hinv.qdisj x (List.mem_cons_of_mem _ hx) h
    · have h1 := hnew1 x hx
      rcases List.mem_cons.mp hmem with h | h
      · have := hinv.nonpos x (Or.inl (h ▸ List.mem_cons_self current rest)) 1 (h ▸ h1)
        omega
      · have := hinv.nonpos x (Or.inr h) 1 h1
        omega
  · intro x hx c2 hc2
    rw [hgeq x] at hc2
    rcases hfind : assocGet? indeg x with _ | c
    · rw [hfind] at hc2
      simp at hc2
    · rw [hfind] at hc2
      simp only [Option.map_some', Option.some.injEq] at hc2
      have hnonneg : (0 : Int) ≤ ((assocGetList D current).count x : Int) := by positivity
      rcases hx with hx | hx
      · rw [hqeq] at hx
        rcases List.mem_append.mp hx with hx | hx
        · have := hinv.nonpos x (Or.inl (List.mem_cons_of_mem _ hx)) c hfind
          omega
        · have h1 := hnew1 x hx
          rw [hfind] at h1
          have hc1 : c = 1 := by
            simpa using h1
          have hx2 : x ∈ assocGetList D current := hnewdeps x hx
          have : ((assocGetList D current).count x : Int) = 1 := by
            rw [hcnt x, if_pos ((hmirror x current).mpr hx2)]
          omega
      · rcases List.mem_cons.mp hx with hx | hx
        · have := hinv.nonpos x (Or.inl (hx ▸ List.mem_cons_self current rest)) c hfind
          omega
        · have := hinv.nonpos x (Or.inr hx) c hfind
          omega
  · intro x hx y hy hyS
    rw [hqeq] at hx
    rcases List.mem_append.mp hx with hx | hx
    · exact List.mem_cons_of_mem _ (hinv.qready x (List.mem_cons_of_mem _ hx) y hy hyS)
    · have h1 := hnew1 x hx
      have hx2 : x ∈ assocGetList D current := hnewdeps x hx
      have hcp : current ∈ assocGetList P x := (hmirror x current).mpr hx2
      have hcountx := hinv.count x 1 h1
      have hlen : ((assocGetList P x).filter (fun y => decide (y ∈ S))).length
          = ((assocGetList P x).filter (fun y => decide (y ∈ current :: accRev))).length := by
        rw [hlenacc x, if_pos hcp]
        unfold prereqIn at hcountx
        omega
      have himp : ∀ z, z ∈ current :: accRev → z ∈ S := by
        intro z hz
        rcases List.mem_cons.mp hz with hz | hz
        · exact hz ▸ hcurS
        · exact hinv.accS z hz
      exact all_of_length_filter_eq (assocGetList P x) (fun z => z ∈ S)
        (fun z => z ∈ current :: accRev) himp hlen y hy hyS
  · intro l2 x l1 hsplit y hy hyS
    cases l2 with
    | nil =>
        simp only [List.nil_append, List.cons.injEq] at hsplit
        obtain ⟨hx, hacc⟩ := hsplit
        rw [← hacc]
        exact hinv.qready current (List.mem_cons_self _ _) y (hx ▸ hy) hyS
    | cons c2 l2b =>
        simp only [List.cons_append, List.cons.injEq] at hsplit
        exact hinv.aorder l2b x l1 hsplit.2 y hy hyS

theorem kahnLoop_sorted (P D : List (String × List String)) (S : List String)
    (hmirror : ∀ x y, y ∈ assocGetList P x ↔ x ∈ assocGetList D y)
    (hPn : ∀ x, (assocGetList P x).Nodup)
    (hDn : ∀ x, (assocGetList D x).Nodup) :
    ∀ (indeg : List (String × Int)) (queue accRev : List String),
      KahnInv P S indeg queue accRev →
      (∀ x ∈ kahnLoop D indeg queue accRev, x ∈ S) ∧
      (∀ l1 x l2, kahnLoop D indeg queue accRev = l1 ++ x :: l2 →
        ∀ y ∈ assocGetList P x, y ∈ S → y ∈ l1) := by
  intro indeg queue accRev
  induction indeg, queue, accRev using kahnLoop.induct D with
  | case1 indeg accRev =>
      intro hinv
      rw [kahnLoop]
      constructor
      · intro x hx
        exact hinv.accS x (List.mem_reverse.mp hx)
      · intro l1 x l2 hsplit y hy hyS
        have hacc : accRev = l2.reverse ++ x :: l1.reverse := by
          have h0 : accRev = (l1 ++ x :: l2).reverse := by
            rw [← hsplit, List.reverse_reverse]
          rw [h0]
          simp [List.reverse_append]
        have := hinv.aorder l2.reverse x l1.reverse hacc y hy hyS
        exact List.mem_reverse.mp this
  | case2 indeg accRev p rest ih =>
      intro hinv
      rw [kahnLoop]
      exact ih (kahnInv_step P D S hmirror hPn hDn indeg p rest accRev hinv)

theorem assocGet?_map_fn {α : Type} (f : String → α) (S : List String) (k : String) :
    assocGet? (S.map (fun tid => (tid, f tid))) k
      = if k ∈ S then some (f k) else none := by
  induction S with
  | nil => simp [assocGet?]
  | cons s rest ih =>
      by_cases hk : k = s
      · simp [assocGet?, hk]
      · simp [assocGet?, hk, ih]

theorem kahnInv_init (g : KnowledgeGraph) (S : List String) (hS : S.Nodup) :
    KahnInv g.prerequisites S (buildInDegree g S)
      (((buildInDegree g S).filter (fun p => decide (p.2 = 0))).map Prod.fst) [] := by
  have hkeys : (buildInDegree g S).map Prod.fst = S := by
    unfold buildInDegree
    rw [List.map_map]
    show List.map (fun tid => tid) S = S
    exact List.map_id' S
  have hget : ∀ k, assocGet? (buildInDegree g S) k
      = if k ∈ S then some ((prereqIn g.prerequisites S k).length : Int) else none := by
    intro k
    unfold buildInDegree prereqIn
    exact assocGet?_map_fn _ S k
  have hq0 : ∀ x, x ∈ ((buildInDegree g S).filter (fun p => decide (p.2 = 0))).map Prod.fst →
      x ∈ S ∧ ((prereqIn g.prerequisites S x).length : Int) = 0 := by
    intro x hx
    rcases List.mem_map.mp hx with ⟨p, hp, hfst⟩
    obtain ⟨hpm, hp0⟩ := List.mem_filter.mp hp
    rcases List.mem_map.mp hpm with ⟨tid, htid, heq⟩
    have hx1 : x = tid := by rw [← hfst, ← heq]
    have hx2 : p.2 = ((prereqIn g.prerequisites S tid).length : Int) := by
      rw [← heq]
      rfl
    refine ⟨hx1 ▸ htid, ?_⟩
    have := of_decide_eq_true hp0
    rw [hx2] at this
    rw [hx1]
    exact this
  refine ⟨hkeys, ?_, ?_, ?_, ?_, ?_, ?_, ?_, ?_, ?_⟩
  · intro k c hkc
    rw [hget k] at hkc
    by_cases hk : k ∈ S
    · rw [if_pos hk] at hkc
      have hc : c = ((prereqIn g.prerequisites S k).length : Int) := by
        simpa using hkc.symm
      have hnil : ((assocGetList g.prerequisites k).filter
          (fun y => decide (y ∈ ([] : List String)))).length = 0 := by
        simp
      rw [hc, hnil]
      simp
    · rw [if_neg hk] at hkc
      simp at hkc
  · intro x hx
    simp at hx
  · intro x hx
    exact (hq0 x hx).1
  · have hsub : List.Sublist
        (((buildInDegree g S).filter (fun p => decide (p.2 = 0))).map Prod.fst)
        ((buildInDegree g S).map Prod.fst) :=
      List.Sublist.map Prod.fst (List.filter_sublist _)
    have hknd : ((buildInDegree g S).map Prod.fst).Nodup := by
      rw [hkeys]
      exact hS
    exact List.Nodup.sublist hsub hknd
  · exact List.nodup_nil
  · intro x hx
    simp
  · intro x hx c hc
    rcases hx with hx | hx
    · obtain ⟨hxS, hx0⟩ := hq0 x hx
      rw [hget x, if_pos hxS] at hc
      have : c = ((prereqIn g.prerequisites S x).length : Int) := by simpa using hc.symm
      omega
    · simp at hx
  · intro x hx y hy hyS
    obtain ⟨hxS, hx0⟩ := hq0 x hx
    have hlen0 : (prereqIn g.prerequisites S x).length = 0 := by exact_mod_cast hx0
    have hnil : prereqIn g.prerequisites S x = [] := List.length_eq_zero.mp hlen0
    have hyp : y ∈ prereqIn g.prerequisites S x := by
      unfold prereqIn
      rw [List.mem_filter]
      exact ⟨hy, decide_eq_true hyS⟩
    rw [hnil] at hyp
    simp at hyp
  · intro l2 x l1 hsplit
    exact absurd hsplit (by simp)

theorem closureLoop_nodup (m : List (String × List String)) (queue acc : List String)
    (h : acc.Nodup) : (closureLoop m queue acc).Nodup := by
  induction queue, acc using closureLoop.induct m with
  | case1 acc =>
      rw [closureLoop]
      exact h
  | case2 acc p rest hp ih =>
      rw [closureLoop]
      simp only [dif_pos hp]
      exact ih h
  | case3 acc p rest hp ih =>
      rw [closureLoop]
      simp only [dif_neg hp]
      exact ih (List.nodup_cons.mpr ⟨hp, h⟩)

/-- C5: for every target and completed-set, `get_learning_path` (on a graph
whose adjacency maps mirror each other and store duplicate-free neighbor
sets, as `add_prerequisite` maintains) returns a list that contains no
completed id and in which every emitted topic appears after all of its
prerequisites that also appear in the returned list. -/
theorem getLearningPath_topological (g : KnowledgeGraph) (targetId : String)
    (completedIds : List String)
    (hmirror : ∀ x y, y ∈ assocGetList g.prerequisites x ↔ x ∈ assocGetList g.dependents y)
    (hPn : ∀ x, (assocGetList g.prerequisites x).Nodup)
    (hDn : ∀ x, (assocGetList g.dependents x).Nodup) :
    (∀ x ∈ (getLearningPath g targetId completedIds).2, x ∉ completedIds) ∧
    (∀ l1 x l2, (getLearningPath g targetId completedIds).2 = l1 ++ x :: l2 →
      ∀ y ∈ assocGetList g.prerequisites x,
        y ∈ (getLearningPath g targetId completedIds).2 → y ∈ l1) := by
  by_cases htarget : targetId ∉ g.topics
  · have hpath : (getLearningPath g targetId completedIds).2 = [] := by
      unfold getLearningPath
      rw [if_pos htarget]
    rw [hpath]
    constructor
    · intro x hx
      simp at hx
    · intro l1 x l2 hsplit
      exact absurd hsplit (by simp)
  · have hneedednd : (getAllPrerequisites g targetId).Nodup :=
      (closureLoop_nodup g.prerequisites _ [] List.nodup_nil).filter _
    have hidsnd : (if targetId ∈ getAllPrerequisites g targetId
        then getAllPrerequisites g targetId
        else getAllPrerequisites g targetId ++ [targetId]).Nodup := by
      split
      · exact hneedednd
      · rename_i hnot
        refine List.Nodup.append hneedednd (List.nodup_singleton _) ?_
        intro a ha hamem
        simp at hamem
        exact hnot (hamem ▸ ha)
    have hSnd : ((if targetId ∈ getAllPrerequisites g targetId
        then getAllPrerequisites g targetId
        else getAllPrerequisites g targetId ++ [targetId]).filter
          (fun x => decide (x ∉ completedIds))).Nodup := hidsnd.filter _
    have hpath : (getLearningPath g targetId completedIds).2
        = topologicalSort g ((if targetId ∈ getAllPrerequisites g targetId
            then getAllPrerequisites g targetId
            else getAllPrerequisites g targetId ++ [targetId]).filter
              (fun x => decide (x ∉ completedIds))) := by
      unfold getLearningPath
      rw [if_neg htarget]
    have hsorted := kahnLoop_sorted g.prerequisites g.dependents _ hmirror hPn hDn
      (buildInDegree g _)
      (((buildInDegree g _).filter (fun p => decide (p.2 = 0))).map Prod.fst) []
      (kahnInv_init g _ hSnd)
    rw [hpath]
    unfold topologicalSort
    constructor
    · intro x hx
      have hxS := hsorted.1 x hx
      have := (List.mem_filter.mp hxS).2
      exact of_decide_eq_true this
    · intro l1 x l2 hsplit y hy hymem
      have hyS := hsorted.1 y hymem
      exact hsorted.2 l1 x l2 hsplit y hy hyS

/-- Concrete three-topic chain a <- b <- c used to instantiate C5. -/
def pathSample : KnowledgeGraph :=
  ⟨["a", "b", "c"], [("b", ["a"]), ("c", ["b"])], [("a", ["b"]), ("b", ["c"])]⟩

theorem pathSample_mirror (x y : String) :
    y ∈ assocGetList pathSample.prerequisites x
      ↔ x ∈ assocGetList pathSample.dependents y := by
  show y ∈ assocGetList [("b", ["a"]), ("c", ["b"])] x
    ↔ x ∈ assocGetList [("a", ["b"]), ("b", ["c"])] y
  by_cases hxb : x = "b" <;> by_cases hxc : x = "c" <;>
    by_cases hya : y = "a" <;> by_cases hyb : y = "b" <;>
      simp_all [assocGetList]

theorem pathSample_prereq_nodup (x : String) :
    (assocGetList pathSample.prerequisites x).Nodup := by
  show (assocGetList [("b", ["a"]), ("c", ["b"])] x).Nodup
  by_cases hxb : x = "b" <;> by_cases hxc : x = "c" <;> simp_all [assocGetList]

theorem pathSample_dep_nodup (x : String) :
    (assocGetList pathSample.dependents x).Nodup := by
  show (assocGetList [("a", ["b"]), ("b", ["c"])] x).Nodup
  by_cases hxa : x = "a" <;> by_cases hxb : x = "b" <;> simp_all [assocGetList]

/-- C5 witness: the topological-validity statement evaluated on the concrete
chain with target "c" and completed set containing "a". -/
theorem getLearningPath_topological_witness :
    (∀ x y, y ∈ assocGetList pathSample.prerequisites x
      ↔ x ∈ assocGetList pathSample.dependents y) ∧
    ((∀ x ∈ (getLearningPath pathSample "c" ["a"]).2, x ∉ ["a"]) ∧
     (∀ l1 x l2, (getLearningPath pathSample "c" ["a"]).2 = l1 ++ x :: l2 →
       ∀ y ∈ assocGetList pathSample.prerequisites x,
         y ∈ (getLearningPath pathSample "c" ["a"]).2 → y ∈ l1)) :=
  ⟨pathSample_mirror,
   getLearningPath_topological pathSample "c" ["a"] pathSample_mirror
     pathSample_prereq_nodup pathSample_dep_nodup⟩

end Johny
